import Mathlib

/-!
# Verification of the juju state layer (`state/service.go`) and plugin env parsing (`process/plugin.go`)

This file gives a shallow embedding, in Lean 4, of the lifecycle engine of the
juju state layer: the `Service` entity of `state/service.go`, its transactional
operations against a document store, and the environment-variable parsing
helpers `ParseEnv` / `UnparseEnv` of `process/plugin.go`.

The document store (mgo collections plus the mgo/txn runner) is modelled as an
explicit `Store` value holding lists of documents; a transaction is a batch of
conditional operations, all of whose assertions are evaluated against the
pre-state and whose effects are applied atomically (the batch semantics the
spec assumes of the store adapter).  Machine integers are modelled as `Int`
(the counters are far from any overflow).  Helper code of the repository that
is not part of the given sources (the `ensureDead` helper, `onAbort`,
`getAlive`, `errNotAlive`, unit unassignment) is modelled from the spec and
marked as such in its doc comment.
-/

namespace Juju

/-- The `Life` enumeration of `state/life.go`: Alive, Dying, Dead. -/
inductive Life where
  | alive
  | dying
  | dead
deriving DecidableEq, Repr

/-- Numeric rank of a `Life` value: Alive < Dying < Dead. -/
def Life.ord : Life → Nat
  | .alive => 0
  | .dying => 1
  | .dead => 2

/-- Forward order on `Life`: `a` precedes (or equals) `b`. -/
def Life.le (a b : Life) : Prop := a.ord ≤ b.ord

instance : DecidablePred fun p : Life × Life => p.1.le p.2 := fun p =>
  inferInstanceAs (Decidable (p.1.ord ≤ p.2.ord))

instance (a b : Life) : Decidable (a.le b) :=
  inferInstanceAs (Decidable (a.ord ≤ b.ord))

/-- The `RelationRole` of an endpoint: peer, provider or requirer. -/
inductive RelationRole where
  | peer
  | provider
  | requirer
deriving DecidableEq, Repr

/-- The `charm.RelationScope` of an endpoint: global or container. -/
inductive RelationScope where
  | global
  | container
deriving DecidableEq, Repr

/-- The unit status (only `UnitPending` is used by the embedded code). -/
inductive UnitStatus where
  | pending
  | other (s : String)
deriving DecidableEq, Repr

/-- `serviceDoc` of `state/service.go`: the stored form of a service.
`txnRevno` is the mgo/txn revision counter of the document. -/
structure ServiceDoc where
  name : String
  charmURL : String
  forceCharm : Bool
  life : Life
  unitSeq : Int
  unitCount : Int
  relationCount : Int
  exposed : Bool
  txnRevno : Int
deriving DecidableEq, Repr

/-- `unitDoc` of `state/unit.go` (the fields used by `state/service.go`). -/
structure UnitDoc where
  name : String
  service : String
  life : Life
  status : UnitStatus
  principal : String
  subordinates : List String
  machineId : String
  txnRevno : Int
deriving DecidableEq, Repr

/-- `Endpoint` of `state/relation.go`: one side of a relation. -/
structure Endpoint where
  serviceName : String
  interface : String
  relationName : String
  relationRole : RelationRole
  relationScope : RelationScope
deriving DecidableEq, Repr

/-- `relationDoc` of `state/relation.go` (the fields used by `state/service.go`). -/
structure RelationDoc where
  key : String
  endpoints : List Endpoint
  life : Life
  txnRevno : Int
deriving DecidableEq, Repr

/-- `charm.Relation` from charm metadata: interface and scope of a relation slot. -/
structure CharmRelation where
  interface : String
  scope : RelationScope
deriving DecidableEq, Repr

/-- `charm.Meta`: the charm metadata fields used here.  The Go maps
`Peers`, `Provides`, `Requires` are modelled as association lists. -/
structure CharmMeta where
  subordinate : Bool
  peers : List (String × CharmRelation)
  provides : List (String × CharmRelation)
  requires : List (String × CharmRelation)
deriving DecidableEq, Repr

/-- A stored charm: its URL and metadata. -/
structure CharmDoc where
  url : String
  meta : CharmMeta
deriving DecidableEq, Repr

/-- The document store: the collections used by `state/service.go`. -/
structure Store where
  services : List ServiceDoc
  units : List UnitDoc
  relations : List RelationDoc
  charms : List CharmDoc
deriving DecidableEq, Repr

/-- Lookup of a service document by its `_id` (the service name). -/
def Store.findService (st : Store) (name : String) : Option ServiceDoc :=
  st.services.find? fun d => d.name = name

/-- Lookup of a unit document by its `_id` (the unit name). -/
def Store.findUnit (st : Store) (name : String) : Option UnitDoc :=
  st.units.find? fun d => d.name = name

/-- Lookup of a relation document by its key. -/
def Store.findRelation (st : Store) (key : String) : Option RelationDoc :=
  st.relations.find? fun d => d.key = key

/-- Lookup of a charm document by its URL (`State.Charm`). -/
def Store.findCharm (st : Store) (url : String) : Option CharmDoc :=
  st.charms.find? fun d => d.url = url

/-- `Service.Relations`: all relation documents with an endpoint naming the
service (the mongo query `endpoints.servicename == name`). -/
def Store.relationsOf (st : Store) (name : String) : List RelationDoc :=
  st.relations.filter fun r => r.endpoints.any fun ep => ep.serviceName = name

/-- The collections a transaction operation can target. -/
inductive Coll where
  | services
  | units
  | relations
deriving DecidableEq, Repr

/-- One atomic assertion of a transaction operation, as used by
`state/service.go`: a field equality or inequality on the target document,
or the document's existence or absence. -/
inductive AssertElem where
  | lifeIs (l : Life)
  | txnRevnoIs (r : Int)
  | unitCountIs (n : Int)
  | relationCountIs (n : Int)
  | unitCountGt (n : Int)
  | noSubordinateWithPrefix (p : String)
  | docExists
  | docMissing
deriving DecidableEq, Repr

/-- The effect of a transaction operation, as used by `state/service.go`. -/
inductive Effect where
  | setLife (l : Life)
  | setExposed (b : Bool)
  | setCharm (url : String) (force : Bool)
  | incUnitCount (d : Int)
  | insertUnit (u : UnitDoc)
  | removeDoc
  | addSubordinate (n : String)
  | pullSubordinate (n : String)
  | noEffect
deriving DecidableEq, Repr

/-- One conditional operation of a transaction batch (`txn.Op`). -/
structure Op where
  c : Coll
  id : String
  assert : List AssertElem
  effect : Effect
deriving DecidableEq, Repr

/-- The generic view of a stored document needed to evaluate assertions. -/
structure DocView where
  life : Life
  txnRevno : Int
  unitCount : Int
  relationCount : Int
  subordinates : List String
deriving DecidableEq, Repr

/-- The assertion-relevant view of the document an op targets, if present. -/
def Store.docView (st : Store) (c : Coll) (id : String) : Option DocView :=
  match c with
  | .services => (st.findService id).map fun d =>
      ⟨d.life, d.txnRevno, d.unitCount, d.relationCount, []⟩
  | .units => (st.findUnit id).map fun d =>
      ⟨d.life, d.txnRevno, 0, 0, d.subordinates⟩
  | .relations => (st.findRelation id).map fun d =>
      ⟨d.life, d.txnRevno, 0, 0, []⟩

/-- Evaluate one assertion against the (possibly absent) target document. -/
def AssertElem.holds (a : AssertElem) (doc : Option DocView) : Bool :=
  match a, doc with
  | .docMissing, none => true
  | .docMissing, some _ => false
  | _, none => false
  | .docExists, some _ => true
  | .lifeIs l, some d => d.life = l
  | .txnRevnoIs r, some d => d.txnRevno = r
  | .unitCountIs n, some d => d.unitCount = n
  | .relationCountIs n, some d => d.relationCount = n
  | .unitCountGt n, some d => d.unitCount > n
  | .noSubordinateWithPrefix p, some d => !(d.subordinates.any fun s => p.isPrefixOf s)

/-- All assertions of one operation hold against the store. -/
def Op.check (op : Op) (st : Store) : Bool :=
  op.assert.all fun a => a.holds (st.docView op.c op.id)

/-- Replace the first list element satisfying `p` by `f` of it. -/
def updateFirst {α : Type} (p : α → Bool) (f : α → α) : List α → List α
  | [] => []
  | x :: xs => if p x then f x :: xs else x :: updateFirst p f xs

/-- Apply an effect to a service document (mgo/txn bumps `txn-revno` on
every modification of a document). -/
def applyToService (e : Effect) (d : ServiceDoc) : ServiceDoc :=
  match e with
  | .setLife l => { d with life := l, txnRevno := d.txnRevno + 1 }
  | .setExposed b => { d with exposed := b, txnRevno := d.txnRevno + 1 }
  | .setCharm url force =>
      { d with charmURL := url, forceCharm := force, txnRevno := d.txnRevno + 1 }
  | .incUnitCount i => { d with unitCount := d.unitCount + i, txnRevno := d.txnRevno + 1 }
  | _ => d

/-- Apply an effect to a unit document. -/
def applyToUnit (e : Effect) (d : UnitDoc) : UnitDoc :=
  match e with
  | .setLife l => { d with life := l, txnRevno := d.txnRevno + 1 }
  | .addSubordinate n =>
      { d with
        subordinates := (if n ∈ d.subordinates then d.subordinates else d.subordinates ++ [n]),
        txnRevno := d.txnRevno + 1 }
  | .pullSubordinate n =>
      { d with
        subordinates := (d.subordinates.filter fun s => s ≠ n),
        txnRevno := d.txnRevno + 1 }
  | _ => d

/-- Apply an effect to a relation document. -/
def applyToRelation (e : Effect) (d : RelationDoc) : RelationDoc :=
  match e with
  | .setLife l => { d with life := l, txnRevno := d.txnRevno + 1 }
  | _ => d

/-- Apply one operation's effect to the store (the assertion has already
been checked).  An update touches the first document with the target id;
an insert appends; a remove deletes every document with the target id. -/
def Op.apply (op : Op) (st : Store) : Store :=
  match op.c, op.effect with
  | .units, .insertUnit u => { st with units := st.units ++ [u] }
  | .services, .removeDoc =>
      { st with services := st.services.filter fun d => d.name ≠ op.id }
  | .units, .removeDoc =>
      { st with units := st.units.filter fun d => d.name ≠ op.id }
  | .relations, .removeDoc =>
      { st with relations := st.relations.filter fun d => d.key ≠ op.id }
  | .services, e =>
      { st with services := updateFirst (fun d => d.name = op.id) (applyToService e) st.services }
  | .units, e =>
      { st with units := updateFirst (fun d => d.name = op.id) (applyToUnit e) st.units }
  | .relations, e =>
      { st with relations := updateFirst (fun d => d.key = op.id) (applyToRelation e) st.relations }

/-- The only transaction failure surfaced by this layer's runner calls:
`txn.ErrAborted`, raised when some assertion does not hold. -/
inductive TxnErr where
  | aborted
deriving DecidableEq, Repr

/-- `runner.Run`: evaluate every operation's assertions against the
pre-state; if all hold, apply all effects atomically, else abort. -/
def runTxn (st : Store) (ops : List Op) : Except TxnErr Store :=
  if ops.all fun op => op.check st then .ok (ops.foldl (fun s op => op.apply s) st)
  else .error .aborted

/-- `isAlive` of `state/state.go`: the assertion `life == Alive`.
Modelled from the spec: the helper itself is outside the given sources;
the spec describes it as the precondition "requires Life==Alive". -/
def isAlive : List AssertElem := [.lifeIs .alive]

/-- Modelled from the spec: `errNotAlive` (§7 error taxonomy, NotAlive). -/
def errNotAlive : String := "not alive"

/-- Modelled from the spec: `onAbort` translates the store's abort signal
into a specific domain error (§7: aborts are never surfaced directly). -/
def onAbort (e : TxnErr) (sub : String) : String :=
  match e with
  | .aborted => sub

/-- Render a Go bool as its `%v` formatting. -/
def boolString (b : Bool) : String := if b then "true" else "false"

/-- `Service.Refresh`: re-read the cached service document from the store;
`NotFoundError` if the service has been removed.  On error the cached
document is left unchanged (the caller keeps the old snapshot). -/
def refresh (st : Store) (s : ServiceDoc) : Except String ServiceDoc :=
  match st.findService s.name with
  | none => .error ("service \"" ++ s.name ++ "\" not found")
  | some d => .ok d

/-- The transaction batch built by one iteration of `Service.EnsureDying`:
assert the service is Alive with unchanged revision and set it Dying; for
every Alive relation of the service, assert it is Alive and set it Dying. -/
def ensureDyingOps (s : ServiceDoc) (rels : List RelationDoc) : List Op :=
  ⟨.services, s.name, [.lifeIs .alive, .txnRevnoIs s.txnRevno], .setLife .dying⟩ ::
    ((rels.filter fun r => r.life = .alive).map fun r =>
      ⟨.relations, r.key, isAlive, .setLife .dying⟩)

/-- `Service.EnsureDying`: loop while the cached Life is Alive; collect the
relations, re-refresh if their number disagrees with the cached relation
count, submit the cascade transaction, refresh and retry on abort.  The Go
loop is unbounded; `fuel` bounds the recursion in the embedding. -/
def ensureDying : Nat → Store → ServiceDoc → Except String Unit × Store × ServiceDoc
  | 0, st, s => (.error "too many retries", st, s)
  | Nat.succ fuel, st, s =>
    if s.life = .alive then
      let rels := st.relationsOf s.name
      if (rels.length : Int) ≠ s.relationCount then
        match refresh st s with
        | .error e => (.error e, st, s)
        | .ok s2 => ensureDying fuel st s2
      else
        match runTxn st (ensureDyingOps s rels) with
        | .error .aborted =>
          match refresh st s with
          | .error e => (.error e, st, s)
          | .ok s2 => ensureDying fuel st s2
        | .ok st2 => ensureDying fuel st2 { s with life := .dying }
    else (.ok (), st, s)

/-- Modelled from the spec: the shared `ensureDead` helper (outside the
given sources).  Per §4.4 and §4.2 step 5: submit the dependent assertions
together with an unconditional `life := Dead` update; on abort, re-read —
if the entity is already Dead the operation is already satisfied (success),
otherwise fail with the supplied "has dependents" message. -/
def ensureDead (st : Store) (c : Coll) (id : String) (desc : String)
    (assertOps : List Op) (msg : String) : Except String Store :=
  match runTxn st (assertOps ++ [⟨c, id, [], .setLife .dead⟩]) with
  | .ok st2 => .ok st2
  | .error .aborted =>
    match st.docView c id with
    | none => .error (desc ++ " not found")
    | some d => if d.life = .dead then .ok st else .error msg

/-- The dependent-free assertion of `Service.EnsureDead`:
`unitcount == 0` and `relationcount == 0` on the service document. -/
def ensureDeadAssertOps (s : ServiceDoc) : List Op :=
  [⟨.services, s.name, [.unitCountIs 0, .relationCountIs 0], .noEffect⟩]

/-- `Service.EnsureDead`: transition to Dead via the shared helper, asserting
zero unit and relation counts; update the cached Life only on success. -/
def EnsureDead (st : Store) (s : ServiceDoc) : Except String Unit × Store × ServiceDoc :=
  match ensureDead st .services s.name "service" (ensureDeadAssertOps s)
      "service still has units and/or relations" with
  | .error e => (.error e, st, s)
  | .ok st2 => (.ok (), st2, { s with life := .dead })

/-- `Service.setExposed`: single-operation transaction asserting the service
is Alive and setting the exposed flag; the cached flag is updated only on
success, and an abort is reported as the NotAlive error. -/
def setExposed (st : Store) (s : ServiceDoc) (exposed : Bool) :
    Except String Unit × Store × ServiceDoc :=
  match runTxn st [⟨.services, s.name, isAlive, .setExposed exposed⟩] with
  | .error e =>
      (.error ("cannot set exposed flag for service \"" ++ s.name ++ "\" to "
        ++ boolString exposed ++ ": " ++ onAbort e errNotAlive), st, s)
  | .ok st2 => (.ok (), st2, { s with exposed := exposed })

/-- `Service.SetExposed`: mark the service as exposed. -/
def SetExposed (st : Store) (s : ServiceDoc) : Except String Unit × Store × ServiceDoc :=
  setExposed st s true

/-- `Service.ClearExposed`: remove the exposed flag. -/
def ClearExposed (st : Store) (s : ServiceDoc) : Except String Unit × Store × ServiceDoc :=
  setExposed st s false

/-- `Service.SetCharm`: swap the charm URL and force flag, asserting the
service is Alive; cached fields updated only on success. -/
def SetCharm (st : Store) (s : ServiceDoc) (ch : CharmDoc) (force : Bool) :
    Except String Unit × Store × ServiceDoc :=
  match runTxn st [⟨.services, s.name, isAlive, .setCharm ch.url force⟩] with
  | .error e =>
      (.error ("cannot set charm for service \"" ++ s.name ++ "\": "
        ++ onAbort e errNotAlive), st, s)
  | .ok st2 => (.ok (), st2, { s with charmURL := ch.url, forceCharm := force })

/-- `Service.Charm` (via `State.Charm`): resolve the service's charm URL in
the charms collection. -/
def charmOf (st : Store) (s : ServiceDoc) : Except String CharmDoc :=
  match st.findCharm s.charmURL with
  | none => .error ("charm \"" ++ s.charmURL ++ "\" not found")
  | some ch => .ok ch

/-- The endpoints contributed by one charm-metadata relation map (the
`collect` closure of `Service.Endpoints`). -/
def mkEndpoints (serviceName : String) (role : RelationRole)
    (rels : List (String × CharmRelation)) : List Endpoint :=
  rels.map fun p => ⟨serviceName, p.2.interface, p.1, role, p.2.scope⟩

/-- The implicit universally-provided endpoint every service exposes. -/
def jujuInfoEp (serviceName : String) : Endpoint :=
  ⟨serviceName, "juju-info", "juju-info", .provider, .global⟩

/-- `Service.Endpoints`: derive the endpoints on demand from the charm's
metadata (peers, provides, requires) plus the implicit juju-info endpoint. -/
def Endpoints (st : Store) (s : ServiceDoc) : Except String (List Endpoint) :=
  match charmOf st s with
  | .error e => .error e
  | .ok ch =>
    .ok (mkEndpoints s.name .peer ch.meta.peers
      ++ mkEndpoints s.name .provider ch.meta.provides
      ++ mkEndpoints s.name .requirer ch.meta.requires
      ++ [jujuInfoEp s.name])

/-- `Service.newUnitName`: one atomic findAndModify that increments the
service's `unitseq` counter; `mgo.Change` without `ReturnNew` yields the
document as it was before the update, so the name is derived from the
counter value before the increment.  A raw findAndModify bypasses the
transaction layer and does not touch `txn-revno`. -/
def newUnitName (st : Store) (s : ServiceDoc) : Except String (String × Store) :=
  match st.findService s.name with
  | none => .error "cannot increment unit sequence: not found"
  | some d =>
      let svcs := updateFirst (fun x => x.name = s.name)
        (fun x => { x with unitSeq := x.unitSeq + 1 }) st.services
      .ok (s.name ++ "/" ++ toString d.unitSeq, { st with services := svcs })

/-- `Service.addUnitOps`: check the subordinate/principal contract against
the charm, allocate a unit name, and build the insertion batch.  The store
is mutated only by the name allocation (returned alongside the result). -/
def addUnitOps (st : Store) (s : ServiceDoc) (principalName : String)
    (strictSubordinates : Bool) : Except String (String × List Op) × Store :=
  match charmOf st s with
  | .error e => (.error e, st)
  | .ok ch =>
    if ch.meta.subordinate ∧ principalName = "" then
      (.error "service is subordinate", st)
    else if ¬ch.meta.subordinate ∧ principalName ≠ "" then
      (.error "service is not a subordinate", st)
    else
      match newUnitName st s with
      | .error e => (.error e, st)
      | .ok (name, st2) =>
        let udoc : UnitDoc := ⟨name, s.name, .alive, .pending, principalName, [], "", 0⟩
        let ops : List Op :=
          [⟨.units, name, [.docMissing], .insertUnit udoc⟩,
           ⟨.services, s.name, isAlive, .incUnitCount 1⟩]
        let ops := if principalName ≠ "" then
            ops ++ [⟨.units, principalName,
              (if strictSubordinates then
                isAlive ++ [.noSubordinateWithPrefix (s.name ++ "/")]
              else isAlive),
              .addSubordinate name⟩]
          else ops
        (.ok (name, ops), st2)

/-- Modelled from the spec: `getAlive` (outside the given sources) re-checks
an entity's liveness after an abort (§4.7). -/
def getAlive (st : Store) (c : Coll) (id : String) : Except String Bool :=
  match st.docView c id with
  | none => .error "not found"
  | some d => .ok (decide (d.life = Life.alive))

/-- The error wrapping applied by `Service.AddUnit`. -/
def addUnitErr (s : ServiceDoc) (msg : String) : String :=
  "cannot add unit to service \"" ++ s.name ++ "\": " ++ msg

/-- `Service.AddUnit`: add a principal unit; on abort, attribute the failure
to service liveness or report an inconsistent state, without retrying. -/
def AddUnit (st : Store) (s : ServiceDoc) : Except String String × Store :=
  match addUnitOps st s "" false with
  | (.error e, st2) => (.error (addUnitErr s e), st2)
  | (.ok (name, ops), st2) =>
    match runTxn st2 ops with
    | .ok st3 => (.ok name, st3)
    | .error .aborted =>
      match getAlive st2 .services s.name with
      | .error e => (.error (addUnitErr s e), st2)
      | .ok false => (.error (addUnitErr s "service is not alive"), st2)
      | .ok true => (.error (addUnitErr s "inconsistent state"), st2)

/-- Modelled from the spec: a unit is a principal iff its principal
reference is empty (§3, Unit invariant). -/
def IsPrincipal (u : UnitDoc) : Bool := u.principal = ""

/-- The error wrapping applied by `Service.AddUnitSubordinateTo`. -/
def addUnitSubErr (s : ServiceDoc) (p : UnitDoc) (msg : String) : String :=
  "cannot add unit to service \"" ++ s.name ++ "\" as a subordinate of \""
    ++ p.name ++ "\": " ++ msg

/-- `Service.AddUnitSubordinateTo` (deprecated): add a subordinate unit
under the given principal; on abort, attribute the failure to service or
principal liveness, else report an inconsistent state. -/
def AddUnitSubordinateTo (st : Store) (s : ServiceDoc) (principal : UnitDoc) :
    Except String String × Store :=
  match charmOf st s with
  | .error e => (.error (addUnitSubErr s principal e), st)
  | .ok ch =>
    if ¬ch.meta.subordinate then
      (.error (addUnitSubErr s principal "service is not a subordinate"), st)
    else if ¬(IsPrincipal principal) then
      (.error (addUnitSubErr s principal "unit is not a principal"), st)
    else
      match addUnitOps st s principal.name false with
      | (.error e, st2) => (.error (addUnitSubErr s principal e), st2)
      | (.ok (name, ops), st2) =>
        match runTxn st2 ops with
        | .ok st3 => (.ok name, st3)
        | .error .aborted =>
          match getAlive st2 .services s.name with
          | .error e => (.error (addUnitSubErr s principal e), st2)
          | .ok false => (.error (addUnitSubErr s principal "service is not alive"), st2)
          | .ok true =>
            match getAlive st2 .units principal.name with
            | .error e => (.error (addUnitSubErr s principal e), st2)
            | .ok false =>
                (.error (addUnitSubErr s principal "principal unit is not alive"), st2)
            | .ok true => (.error (addUnitSubErr s principal "inconsistent state"), st2)

/-- Modelled from the spec: `Unit.UnassignFromMachine` (external collaborator
operation, §4.8) clears the unit's machine assignment in the store and in
the cached snapshot; it does not touch any Life field. -/
def UnassignFromMachine (st : Store) (u : UnitDoc) : Store × UnitDoc :=
  let us := updateFirst (fun d => d.name = u.name)
    (fun d => { d with machineId := "" }) st.units
  ({ st with units := us }, { u with machineId := "" })

/-- The error wrapping applied by `Service.RemoveUnit`. -/
def removeUnitErr (u : UnitDoc) (msg : String) : String :=
  "cannot remove unit \"" ++ u.name ++ "\": " ++ msg

/-- The transaction batch of `Service.RemoveUnit`: remove the unit document
(assert Life==Dead), decrement the service's unit count (assert it is
positive), and, for a subordinate, pull the unit from its principal's
subordinate set (assert the principal document exists). -/
def removeUnitOps (s : ServiceDoc) (u : UnitDoc) : List Op :=
  [⟨.units, u.name, [.lifeIs .dead], .removeDoc⟩,
   ⟨.services, s.name, [.unitCountGt 0], .incUnitCount (-1)⟩]
    ++ (if u.principal ≠ "" then
          [⟨.units, u.principal, [.docExists], .pullSubordinate u.name⟩]
        else [])

/-- `Service.RemoveUnit`: precondition checks (unit Dead, unit owned by this
service), machine unassignment if needed, then the removal transaction; on
abort, success if no unit document with that name remains, otherwise an
invariant-violation error — never a retry. -/
def RemoveUnit (st : Store) (s : ServiceDoc) (u : UnitDoc) :
    Except String Unit × Store :=
  if u.life ≠ .dead then (.error (removeUnitErr u "unit is not dead"), st)
  else if u.service ≠ s.name then
    (.error (removeUnitErr u ("unit is not assigned to service \"" ++ s.name ++ "\"")), st)
  else
    let p := if u.machineId ≠ "" then UnassignFromMachine st u else (st, u)
    match runTxn p.1 (removeUnitOps s p.2) with
    | .ok st2 => (.ok (), st2)
    | .error .aborted =>
      if (p.1.units.filter fun d => d.name = p.2.name).length > 0 then
        (.error (removeUnitErr u "cannot remove unit; something smells bad"), p.1)
      else (.ok (), p.1)

/-- One invocation of a lifecycle-bearing operation of the Service entity:
the step alphabet of the layer's step relation. -/
inductive OpCall where
  | ensureDying (fuel : Nat)
  | ensureDead
  | setExposed (v : Bool)
  | setCharm (ch : CharmDoc) (force : Bool)
  | addUnit
  | addUnitSubordinateTo (principal : UnitDoc)
  | removeUnit (u : UnitDoc)
  | refresh

/-- Execute one operation of the step relation on a store and a cached
service snapshot, returning the result, the new store and the new snapshot. -/
def execCall : OpCall → Store → ServiceDoc → Except String Unit × Store × ServiceDoc
  | .ensureDying fuel, st, s => ensureDying fuel st s
  | .ensureDead, st, s => EnsureDead st s
  | .setExposed v, st, s => setExposed st s v
  | .setCharm ch force, st, s => SetCharm st s ch force
  | .addUnit, st, s =>
      let r := AddUnit st s
      (r.1.map fun _ => (), r.2, s)
  | .addUnitSubordinateTo p, st, s =>
      let r := AddUnitSubordinateTo st s p
      (r.1.map fun _ => (), r.2, s)
  | .removeUnit u, st, s =>
      let r := RemoveUnit st s u
      (r.1, r.2, s)
  | .refresh, st, s =>
      match refresh st s with
      | .error e => (.error e, st, s)
      | .ok s2 => (.ok (), st, s2)

/-- The stored Life of the document with the given id, if present. -/
def docLife (st : Store) (c : Coll) (k : String) : Option Life :=
  (st.docView c k).map DocView.life

/-- Entity-wise forward order on optional Life values: an entity present
before and after may only move forward; creation and removal are free. -/
def lifeLeOpt : Option Life → Option Life → Prop
  | some a, some b => a.le b
  | _, _ => True

instance (a b : Option Life) : Decidable (lifeLeOpt a b) := by
  unfold lifeLeOpt
  match a, b with
  | some a, some b => exact inferInstanceAs (Decidable (Life.le a b))
  | some _, none => exact inferInstanceAs (Decidable True)
  | none, _ => exact inferInstanceAs (Decidable True)

/-- Store-wide Life monotonicity between two store states. -/
def StoreLifeMono (st st2 : Store) : Prop :=
  ∀ c k, lifeLeOpt (docLife st c k) (docLife st2 c k)

/-- A cached service snapshot is never ahead of the store: the stored Life
is at least the cached one.  This holds for every snapshot ever read from
the store, since stored Life only moves forward. -/
def cacheNotAhead (st : Store) (s : ServiceDoc) : Prop :=
  ∀ d, st.findService s.name = some d → s.life.le d.life

end Juju

namespace Process

/-- The whitespace characters trimmed by Go's `strings.TrimSpace`
(the ASCII part of `unicode.IsSpace`). -/
def isSpaceChar (c : Char) : Bool :=
  c = ' ' ∨ c = '\t' ∨ c = '\n' ∨ c = '\x0b' ∨ c = '\x0c' ∨ c = '\r'

/-- Trim leading whitespace (strings modelled as character lists). -/
def trimLeft (l : List Char) : List Char := l.dropWhile isSpaceChar

/-- Trim trailing whitespace. -/
def trimRight (l : List Char) : List Char := (l.reverse.dropWhile isSpaceChar).reverse

/-- `strings.TrimSpace`: trim whitespace from both ends. -/
def trimSpace (l : List Char) : List Char := trimRight (trimLeft l)

/-- `strings.SplitN(s, "=", 2)`: the part before the first `'='` and,
when a `'='` occurs, the remainder after it. -/
def splitEq : List Char → List Char × Option (List Char)
  | [] => ([], none)
  | c :: rest =>
    if c = '=' then ([], some rest)
    else
      let p := splitEq rest
      (c :: p.1, p.2)

/-- A Go `map[string]string`, modelled as an insertion-ordered association
list with replace-on-duplicate-key semantics. -/
abbrev EnvMap : Type := List (List Char × List Char)

/-- Whether the map already binds the key. -/
def envHasKey (m : EnvMap) (k : List Char) : Bool :=
  m.any fun p => p.1 = k

/-- `m[k] = v` on a Go map: overwrite an existing binding, else append. -/
def envInsert (m : EnvMap) (k v : List Char) : EnvMap :=
  if envHasKey m k then m.map fun p => if p.1 = k then (k, v) else p
  else m ++ [(k, v)]

/-- The loop body of `ParseEnv`: trim each entry, skip blanks, split at the
first `'='` (an entry without one gets an empty value), insert. -/
def parseEnvLoop (m : EnvMap) : List (List Char) → EnvMap
  | [] => m
  | e :: rest =>
    let t := trimSpace e
    if t = [] then parseEnvLoop m rest
    else
      let p := splitEq t
      parseEnvLoop (envInsert m p.1 (p.2.getD [])) rest

/-- `ParseEnv` of `process/plugin.go`: build the map; return Go's `nil`
(here `none`) when no entry survives. -/
def ParseEnv (raw : List (List Char)) : Option EnvMap :=
  let m := parseEnvLoop [] raw
  if m = [] then none else some m

/-- `UnparseEnv` of `process/plugin.go`: render each binding as `k=v`
(iterating the map in its insertion order). -/
def UnparseEnv (env : EnvMap) : List (List Char) :=
  env.map fun p => p.1 ++ '=' :: p.2

/-- The first character, if any, is not whitespace. -/
def headNotSpace (k : List Char) : Bool :=
  match k.head? with
  | none => true
  | some c => !isSpaceChar c

/-- The last character, if any, is not whitespace. -/
def lastNotSpace (k : List Char) : Bool :=
  headNotSpace k.reverse

/-- The hypotheses of the round-trip claim on one binding: non-empty key,
no `'='` in the key, no leading or trailing whitespace around the key, no
trailing whitespace after the value. -/
def WFEntry (k v : List Char) : Prop :=
  k ≠ [] ∧ '=' ∉ k ∧ headNotSpace k = true ∧ lastNotSpace k = true ∧ lastNotSpace v = true

instance (k v : List Char) : Decidable (WFEntry k v) := by
  unfold WFEntry; infer_instance

/-- A well-formed environment map: well-formed bindings, distinct keys. -/
def WFEnv (env : EnvMap) : Prop :=
  (∀ p ∈ env, WFEntry p.1 p.2) ∧ (env.map Prod.fst).Nodup

instance (env : EnvMap) : Decidable (WFEnv env) := by
  unfold WFEnv; infer_instance

end Process

namespace Juju

/-! ## Helper lemmas about `updateFirst` and document lookup -/

theorem find?_updateFirst_same {α : Type} (p : α → Bool) (f : α → α) (l : List α)
    (hf : ∀ x, p x = true → p (f x) = true) :
    (updateFirst p f l).find? p = (l.find? p).map f := by
  induction l with
  | nil => rfl
  | cons x xs ih =>
    by_cases hx : p x = true
    · simp [updateFirst, hx, List.find?, hf x hx]
    · simp only [updateFirst, hx, if_false, Bool.false_eq_true]
      simp [List.find?, hx, ih]

theorem find?_updateFirst_other {α : Type} (p q : α → Bool) (f : α → α) (l : List α)
    (h : ∀ x, p x = true → (q x = false ∧ q (f x) = false)) :
    (updateFirst p f l).find? q = l.find? q := by
  induction l with
  | nil => rfl
  | cons x xs ih =>
    by_cases hx : p x = true
    · simp [updateFirst, hx, List.find?, (h x hx).1, (h x hx).2]
    · simp only [updateFirst, hx, if_false, Bool.false_eq_true]
      by_cases hq : q x = true
      · simp [List.find?, hq]
      · simp [List.find?, hq, ih]

theorem find?_key_self {α : Type} (key : α → String) (l : List α)
    (hnodup : (l.map key).Nodup) (r : α) (hr : r ∈ l) :
    l.find? (fun d => key d = key r) = some r := by
  induction l with
  | nil => cases hr
  | cons x xs ih =>
    have hnd := hnodup
    simp only [List.map_cons, List.nodup_cons] at hnd
    rcases List.mem_cons.mp hr with rfl | hr2
    · simp [List.find?]
    · have hxk : ¬key x = key r := by
        intro he
        exact hnd.1 (he ▸ List.mem_map_of_mem key hr2)
      simp [List.find?, hxk, ih hnd.2 hr2]

theorem apply_charms (op : Op) (st : Store) : (op.apply st).charms = st.charms := by
  rcases op with ⟨c, id, a, eff⟩
  cases c <;> cases eff <;> rfl

theorem apply_rel_frame (op : Op) (st : Store) (h : op.c = Coll.relations) :
    (op.apply st).services = st.services ∧ (op.apply st).units = st.units := by
  rcases op with ⟨c, id, a, eff⟩
  simp only at h
  subst h
  cases eff <;> exact ⟨rfl, rfl⟩

theorem apply_rel_setDying (op : Op) (st : Store) (h : op.c = Coll.relations)
    (h2 : op.effect = Effect.setLife .dying) :
    op.apply st = { st with relations := updateFirst (fun d => d.key = op.id) (applyToRelation (.setLife .dying)) st.relations } := by
  rcases op with ⟨c, id, a, eff⟩
  simp only at h h2
  subst h
  subst h2
  rfl

theorem foldl_relOps (ops : List Op)
    (h : ∀ op ∈ ops, op.c = Coll.relations ∧ op.effect = Effect.setLife .dying) :
    ∀ st : Store,
      ops.foldl (fun s op => op.apply s) st =
        { st with relations := ops.foldl (fun acc op => updateFirst (fun d => d.key = op.id) (applyToRelation (.setLife .dying)) acc) st.relations } := by
  induction ops with
  | nil => intro st; rfl
  | cons op ops ih =>
    intro st
    simp only [List.foldl_cons]
    rw [apply_rel_setDying op st (h op (List.mem_cons_self _ _)).1 (h op (List.mem_cons_self _ _)).2]
    rw [ih (fun o ho => h o (List.mem_cons_of_mem _ ho))]

theorem relFold_mem (L : List RelationDoc)
    (hnodupL : (L.map RelationDoc.key).Nodup) :
    ∀ curr : List RelationDoc, ∀ k : String,
      (k ∈ L.map RelationDoc.key →
        (L.foldl (fun acc r => updateFirst (fun d => d.key = r.key) (applyToRelation (.setLife .dying)) acc) curr).find? (fun d => d.key = k) =
          (curr.find? (fun d => d.key = k)).map (applyToRelation (.setLife .dying))) ∧
      (k ∉ L.map RelationDoc.key →
        (L.foldl (fun acc r => updateFirst (fun d => d.key = r.key) (applyToRelation (.setLife .dying)) acc) curr).find? (fun d => d.key = k) =
          curr.find? (fun d => d.key = k)) := by
  induction L with
  | nil => intro curr k; exact ⟨fun h => absurd h (by simp), fun _ => rfl⟩
  | cons r L ih =>
    intro curr k
    have hnd := hnodupL
    simp only [List.map_cons, List.nodup_cons] at hnd
    constructor
    · intro hk
      simp only [List.map_cons, List.mem_cons] at hk
      rcases hk with hkeq | hk2
      · subst hkeq
        have hnotin : r.key ∉ L.map RelationDoc.key := hnd.1
        simp only [List.foldl_cons]
        rw [(ih hnd.2 (updateFirst (fun d => d.key = r.key) (applyToRelation (.setLife .dying)) curr) r.key).2 hnotin]
        exact find?_updateFirst_same _ _ _ (fun x hx => by
          simpa [applyToRelation] using hx)
      · by_cases hkr : k = r.key
        · subst hkr
          exact absurd hk2 hnd.1
        · have hrk : ¬r.key = k := fun h => hkr h.symm
          simp only [List.foldl_cons]
          rw [(ih hnd.2 (updateFirst (fun d => d.key = r.key) (applyToRelation (.setLife .dying)) curr) k).1 hk2]
          congr 1
          refine find?_updateFirst_other _ _ _ _ ?_
          intro x hx
          have hxk : x.key = r.key := by simpa using hx
          exact ⟨by simp [hxk, hrk], by simp [applyToRelation, hxk, hrk]⟩
    · intro hk
      have hkr : ¬k = r.key := by
        intro he
        refine hk ?_
        simp [he]
      have hrk : ¬r.key = k := fun h => hkr h.symm
      have hk2 : k ∉ L.map RelationDoc.key := by
        intro h
        refine hk ?_
        simp [h]
      simp only [List.foldl_cons]
      rw [(ih hnd.2 (updateFirst (fun d => d.key = r.key) (applyToRelation (.setLife .dying)) curr) k).2 hk2]
      refine find?_updateFirst_other _ _ _ _ ?_
      intro x hx
      have hxk : x.key = r.key := by simpa using hx
      exact ⟨by simp [hxk, hrk], by simp [applyToRelation, hxk, hrk]⟩

/-! ## Life-order helper lemmas for C4 -/

theorem Life.le_refl (a : Life) : a.le a := Nat.le_refl _

theorem Life.le_trans {a b c : Life} (h1 : a.le b) (h2 : b.le c) : a.le c :=
  Nat.le_trans h1 h2

theorem Life.alive_le (b : Life) : Life.alive.le b := by cases b <;> decide

theorem Life.le_dead (a : Life) : a.le Life.dead := by cases a <;> decide

theorem lifeLeOpt_refl (x : Option Life) : lifeLeOpt x x := by
  cases x with
  | none => trivial
  | some a => exact Life.le_refl a

theorem lifeLeOpt_none_right (x : Option Life) : lifeLeOpt x none := by
  cases x <;> trivial

theorem lifeLeOpt_dead_right (x : Option Life) : lifeLeOpt x (some Life.dead) := by
  cases x with
  | none => trivial
  | some a => exact Life.le_dead a

theorem lifeLeOpt_alive_left (x : Option Life) : lifeLeOpt (some Life.alive) x := by
  cases x with
  | none => trivial
  | some a => exact Life.alive_le a

theorem dead_terminal {x : Option Life} (h : lifeLeOpt (some Life.dead) x) :
    x = none ∨ x = some Life.dead := by
  cases x with
  | none => exact Or.inl rfl
  | some b =>
    cases b with
    | alive => cases h
    | dying => cases h with | step h => cases h
    | dead => exact Or.inr rfl

theorem StoreLifeMono.refl (st : Store) : StoreLifeMono st st :=
  fun _ _ => lifeLeOpt_refl _

/-- Store states with identical document-Life maps. -/
theorem mono_of_docLifeEq {st st2 : Store}
    (h : ∀ c k, docLife st2 c k = docLife st c k) : StoreLifeMono st st2 := by
  intro c k
  rw [h c k]
  exact lifeLeOpt_refl _

theorem mono_trans_eq {st st2 st3 : Store}
    (heq : ∀ c k, docLife st2 c k = docLife st c k)
    (h : StoreLifeMono st2 st3) : StoreLifeMono st st3 := by
  intro c k
  rw [show docLife st c k = docLife st2 c k from (heq c k).symm]
  exact h c k

/-! ## docLife unfolding and list-level lemmas for C4 -/

theorem docLife_services (st : Store) (k : String) :
    docLife st .services k = (st.services.find? fun d => d.name = k).map ServiceDoc.life := by
  simp [docLife, Store.docView, Store.findService, Option.map_map]
  rfl

theorem docLife_units (st : Store) (k : String) :
    docLife st .units k = (st.units.find? fun d => d.name = k).map UnitDoc.life := by
  simp [docLife, Store.docView, Store.findUnit, Option.map_map]
  rfl

theorem docLife_relations (st : Store) (k : String) :
    docLife st .relations k = (st.relations.find? fun d => d.key = k).map RelationDoc.life := by
  simp [docLife, Store.docView, Store.findRelation, Option.map_map]
  rfl

theorem find?_map_life_updateFirst {α : Type} (key : α → String) (life : α → Life)
    (p : α → Bool) (f : α → α) (hkey : ∀ x, key (f x) = key x)
    (hlife : ∀ x, life (f x) = life x) (l : List α) (k : String) :
    ((updateFirst p f l).find? fun d => key d = k).map life =
      (l.find? fun d => key d = k).map life := by
  induction l with
  | nil => rfl
  | cons x xs ih =>
    by_cases hx : p x = true
    · simp only [updateFirst, hx, if_true]
      by_cases hk : key x = k
      · simp [List.find?, hkey, hk, hlife]
      · have hk2 : ¬key (f x) = k := by rw [hkey]; exact hk
        simp [List.find?, hk, hk2]
    · simp only [updateFirst, hx, if_false, Bool.false_eq_true]
      by_cases hk : key x = k
      · simp [List.find?, hk]
      · simp [List.find?, hk, ih]

theorem find?_filter_ne_key {α : Type} (key : α → String) (l : List α) (i k : String)
    (hik : ¬k = i) :
    ((l.filter fun d => key d ≠ i).find? fun d => key d = k) =
      l.find? fun d => key d = k := by
  induction l with
  | nil => rfl
  | cons x xs ih =>
    by_cases hxi : key x = i
    · have hxk : ¬key x = k := by rw [hxi]; exact fun h => hik h.symm
      have h1 : (decide (key x ≠ i)) = false := by simp [hxi]
      have h2 : (decide (key x = k)) = false := by simp [hxk]
      simp only [List.filter_cons, h1, Bool.false_eq_true, if_false]
      rw [ih]
      conv_rhs => rw [List.find?]
      simp only [h2]
    · have h1 : (decide (key x ≠ i)) = true := by simp [hxi]
      simp only [List.filter_cons, h1, if_true]
      rw [List.find?, List.find?]
      by_cases hxk : key x = k
      · have h2 : (decide (key x = k)) = true := by simp [hxk]
        simp only [h2]
      · have h2 : (decide (key x = k)) = false := by simp [hxk]
        simp only [h2]
        exact ih

theorem find?_filter_self_none {α : Type} (key : α → String) (l : List α) (i : String) :
    ((l.filter fun d => key d ≠ i).find? fun d => key d = i) = none := by
  rw [List.find?_eq_none]
  intro x hx
  have h2 := (List.mem_filter.mp hx).2
  simp only [ne_eq, decide_not, Bool.not_eq_true', decide_eq_false_iff_not] at h2
  simpa using h2

theorem find?_append_one {α : Type} (key : α → String) (l : List α) (u : α) (k : String)
    (hu : ¬key u = k) :
    ((l ++ [u]).find? fun d => key d = k) = l.find? fun d => key d = k := by
  induction l with
  | nil => simp [List.find?, hu]
  | cons x xs ih =>
    by_cases hxk : key x = k
    · simp [List.find?, hxk]
    · simp only [List.cons_append]
      simp [List.find?, hxk, ih]

/-! ## Effect-preservation lemmas for C4 -/

theorem applyToService_name (e : Effect) (d : ServiceDoc) :
    (applyToService e d).name = d.name := by cases e <;> rfl

theorem applyToUnit_name (e : Effect) (d : UnitDoc) :
    (applyToUnit e d).name = d.name := by cases e <;> rfl

theorem applyToRelation_key (e : Effect) (d : RelationDoc) :
    (applyToRelation e d).key = d.key := by cases e <;> rfl

theorem applyToService_life (e : Effect) (d : ServiceDoc)
    (h : ∀ l, ¬e = Effect.setLife l) : (applyToService e d).life = d.life := by
  cases e <;> first
    | rfl
    | exact absurd rfl (h _)

theorem applyToUnit_life (e : Effect) (d : UnitDoc)
    (h : ∀ l, ¬e = Effect.setLife l) : (applyToUnit e d).life = d.life := by
  cases e <;> first
    | rfl
    | exact absurd rfl (h _)

theorem applyToRelation_life (e : Effect) (d : RelationDoc)
    (h : ∀ l, ¬e = Effect.setLife l) : (applyToRelation e d).life = d.life := by
  cases e <;> first
    | rfl
    | exact absurd rfl (h _)

theorem lifeLeOpt_none_left (x : Option Life) : lifeLeOpt none x := by
  cases x <;> trivial

theorem check_assert_holds (st : Store) (op : Op) (hchk : op.check st = true)
    (a : AssertElem) (ha : a ∈ op.assert) : a.holds (st.docView op.c op.id) = true := by
  unfold Op.check at hchk
  rw [List.all_eq_true] at hchk
  exact hchk a ha

theorem holds_lifeIs_alive {ov : Option DocView}
    (h : (AssertElem.lifeIs Life.alive).holds ov = true) :
    ov.map DocView.life = some Life.alive := by
  cases ov with
  | none => cases h
  | some d =>
    simp only [AssertElem.holds, decide_eq_true_eq] at h
    simp [h]

theorem holds_docMissing {ov : Option DocView}
    (h : AssertElem.docMissing.holds ov = true) : ov = none := by
  cases ov with
  | none => rfl
  | some d => cases h

theorem apply_coll_frame (op : Op) (cur : Store) :
    (op.c ≠ .services → (op.apply cur).services = cur.services) ∧
    (op.c ≠ .units → (op.apply cur).units = cur.units) ∧
    (op.c ≠ .relations → (op.apply cur).relations = cur.relations) := by
  rcases op with ⟨oc, oid, oa, oe⟩
  cases oc <;> cases oe <;>
    exact ⟨fun h => by first | rfl | exact absurd rfl h,
      fun h => by first | rfl | exact absurd rfl h,
      fun h => by first | rfl | exact absurd rfl h⟩

theorem docLife_apply_ne (op : Op) (cur : Store) (c : Coll) (k : String)
    (h : ¬op.c = c) : docLife (op.apply cur) c k = docLife cur c k := by
  cases c with
  | services => rw [docLife_services, docLife_services, (apply_coll_frame op cur).1 h]
  | units => rw [docLife_units, docLife_units, (apply_coll_frame op cur).2.1 h]
  | relations => rw [docLife_relations, docLife_relations, (apply_coll_frame op cur).2.2 h]

theorem applyOp_mono_services (st cur : Store) (oid : String) (oa : List AssertElem)
    (oe : Effect)
    (hchk : (Op.mk .services oid oa oe).check st = true)
    (hgoodLife : ∀ l, oe = Effect.setLife l →
      l = Life.dead ∨ (l = Life.dying ∧ AssertElem.lifeIs Life.alive ∈ oa))
    (hR : StoreLifeMono st cur) (k : String) :
    lifeLeOpt (docLife st .services k) (docLife ((Op.mk .services oid oa oe).apply cur) .services k) := by
  have hpres : ∀ e : Effect, (∀ l, ¬e = Effect.setLife l) →
      lifeLeOpt (docLife st .services k)
        (docLife { cur with services := updateFirst (fun d => d.name = oid) (applyToService e) cur.services } .services k) := by
    intro e he
    simp only [docLife_services]
    rw [find?_map_life_updateFirst ServiceDoc.name ServiceDoc.life _ _
      (applyToService_name e) (fun x => applyToService_life e x he) cur.services k]
    rw [← docLife_services, ← docLife_services]
    exact hR .services k
  have hother : ∀ e : Effect, ¬k = oid →
      lifeLeOpt (docLife st .services k)
        (docLife { cur with services := updateFirst (fun d => d.name = oid) (applyToService e) cur.services } .services k) := by
    intro e hk
    simp only [docLife_services]
    rw [find?_updateFirst_other _ _ _ _ (fun x hx => by
      have hxn : x.name = oid := by simpa using hx
      have hk2 : ¬oid = k := fun h => hk h.symm
      exact ⟨by simp [hxn, hk2], by simp [applyToService_name, hxn, hk2]⟩)]
    rw [← docLife_services, ← docLife_services]
    exact hR .services k
  cases oe with
  | removeDoc =>
    show lifeLeOpt _ (docLife { cur with services := cur.services.filter fun d => d.name ≠ oid } .services k)
    by_cases hk : k = oid
    · subst hk
      simp only [docLife_services]
      rw [find?_filter_self_none ServiceDoc.name cur.services k]
      exact lifeLeOpt_none_right _
    · simp only [docLife_services]
      rw [find?_filter_ne_key ServiceDoc.name cur.services oid k hk]
      rw [← docLife_services, ← docLife_services]
      exact hR .services k
  | setLife l =>
    rcases hgoodLife l rfl with rfl | ⟨rfl, hmem⟩
    · show lifeLeOpt _ (docLife { cur with services := updateFirst (fun d => d.name = oid) (applyToService (.setLife .dead)) cur.services } .services k)
      by_cases hk : k = oid
      · subst hk
        simp only [docLife_services]
        rw [find?_updateFirst_same _ _ _ (fun x hx => by simpa [applyToService] using hx)]
        cases cur.services.find? fun d => d.name = k with
        | none => exact lifeLeOpt_none_right _
        | some x => exact lifeLeOpt_dead_right _
      · exact hother _ hk
    · by_cases hk : k = oid
      · subst hk
        have halive : docLife st .services k = some Life.alive :=
          holds_lifeIs_alive (check_assert_holds st (Op.mk .services k oa (.setLife .dying)) hchk _ hmem)
        rw [halive]
        exact lifeLeOpt_alive_left _
      · exact hother _ hk
  | setExposed b => exact hpres _ (by intro l h; cases h)
  | setCharm url force => exact hpres _ (by intro l h; cases h)
  | incUnitCount d => exact hpres _ (by intro l h; cases h)
  | insertUnit u => exact hpres _ (by intro l h; cases h)
  | addSubordinate n => exact hpres _ (by intro l h; cases h)
  | pullSubordinate n => exact hpres _ (by intro l h; cases h)
  | noEffect => exact hpres _ (by intro l h; cases h)

theorem applyOp_mono_units (st cur : Store) (oid : String) (oa : List AssertElem)
    (oe : Effect)
    (hchk : (Op.mk .units oid oa oe).check st = true)
    (hgoodLife : ∀ l, oe = Effect.setLife l →
      l = Life.dead ∨ (l = Life.dying ∧ AssertElem.lifeIs Life.alive ∈ oa))
    (hgoodIns : ∀ u, oe = Effect.insertUnit u →
      u.name = oid ∧ AssertElem.docMissing ∈ oa)
    (hR : StoreLifeMono st cur) (k : String) :
    lifeLeOpt (docLife st .units k) (docLife ((Op.mk .units oid oa oe).apply cur) .units k) := by
  have hpres : ∀ e : Effect, (∀ l, ¬e = Effect.setLife l) →
      lifeLeOpt (docLife st .units k)
        (docLife { cur with units := updateFirst (fun d => d.name = oid) (applyToUnit e) cur.units } .units k) := by
    intro e he
    simp only [docLife_units]
    rw [find?_map_life_updateFirst UnitDoc.name UnitDoc.life _ _
      (applyToUnit_name e) (fun x => applyToUnit_life e x he) cur.units k]
    rw [← docLife_units, ← docLife_units]
    exact hR .units k
  have hother : ∀ e : Effect, ¬k = oid →
      lifeLeOpt (docLife st .units k)
        (docLife { cur with units := updateFirst (fun d => d.name = oid) (applyToUnit e) cur.units } .units k) := by
    intro e hk
    simp only [docLife_units]
    rw [find?_updateFirst_other _ _ _ _ (fun x hx => by
      have hxn : x.name = oid := by simpa using hx
      have hk2 : ¬oid = k := fun h => hk h.symm
      exact ⟨by simp [hxn, hk2], by simp [applyToUnit_name, hxn, hk2]⟩)]
    rw [← docLife_units, ← docLife_units]
    exact hR .units k
  cases oe with
  | removeDoc =>
    show lifeLeOpt _ (docLife { cur with units := cur.units.filter fun d => d.name ≠ oid } .units k)
    by_cases hk : k = oid
    · subst hk
      simp only [docLife_units]
      rw [find?_filter_self_none UnitDoc.name cur.units k]
      exact lifeLeOpt_none_right _
    · simp only [docLife_units]
      rw [find?_filter_ne_key UnitDoc.name cur.units oid k hk]
      rw [← docLife_units, ← docLife_units]
      exact hR .units k
  | setLife l =>
    rcases hgoodLife l rfl with rfl | ⟨rfl, hmem⟩
    · show lifeLeOpt _ (docLife { cur with units := updateFirst (fun d => d.name = oid) (applyToUnit (.setLife .dead)) cur.units } .units k)
      by_cases hk : k = oid
      · subst hk
        simp only [docLife_units]
        rw [find?_updateFirst_same _ _ _ (fun x hx => by simpa [applyToUnit] using hx)]
        cases cur.units.find? fun d => d.name = k with
        | none => exact lifeLeOpt_none_right _
        | some x => exact lifeLeOpt_dead_right _
      · exact hother _ hk
    · by_cases hk : k = oid
      · subst hk
        have halive : docLife st .units k = some Life.alive :=
          holds_lifeIs_alive (check_assert_holds st (Op.mk .units k oa (.setLife .dying)) hchk _ hmem)
        rw [halive]
        exact lifeLeOpt_alive_left _
      · exact hother _ hk
  | insertUnit u =>
    obtain ⟨huname, humem⟩ := hgoodIns u rfl
    show lifeLeOpt _ (docLife { cur with units := cur.units ++ [u] } .units k)
    by_cases hk : k = oid
    · subst hk
      have hnone : docLife st .units k = none := by
        have h := holds_docMissing (check_assert_holds st (Op.mk .units k oa (.insertUnit u)) hchk _ humem)
        show (st.docView .units k).map DocView.life = none
        rw [h]
        rfl
      rw [hnone]
      exact lifeLeOpt_none_left _
    · simp only [docLife_units]
      rw [find?_append_one UnitDoc.name cur.units u k (by rw [huname]; exact fun h => hk h.symm)]
      rw [← docLife_units, ← docLife_units]
      exact hR .units k
  | setExposed b => exact hpres _ (by intro l h; cases h)
  | setCharm url force => exact hpres _ (by intro l h; cases h)
  | incUnitCount d => exact hpres _ (by intro l h; cases h)
  | addSubordinate n => exact hpres _ (by intro l h; cases h)
  | pullSubordinate n => exact hpres _ (by intro l h; cases h)
  | noEffect => exact hpres _ (by intro l h; cases h)

theorem applyOp_mono_relations (st cur : Store) (oid : String) (oa : List AssertElem)
    (oe : Effect)
    (hchk : (Op.mk .relations oid oa oe).check st = true)
    (hgoodLife : ∀ l, oe = Effect.setLife l →
      l = Life.dead ∨ (l = Life.dying ∧ AssertElem.lifeIs Life.alive ∈ oa))
    (hR : StoreLifeMono st cur) (k : String) :
    lifeLeOpt (docLife st .relations k) (docLife ((Op.mk .relations oid oa oe).apply cur) .relations k) := by
  have hpres : ∀ e : Effect, (∀ l, ¬e = Effect.setLife l) →
      lifeLeOpt (docLife st .relations k)
        (docLife { cur with relations := updateFirst (fun d => d.key = oid) (applyToRelation e) cur.relations } .relations k) := by
    intro e he
    simp only [docLife_relations]
    rw [find?_map_life_updateFirst RelationDoc.key RelationDoc.life _ _
      (applyToRelation_key e) (fun x => applyToRelation_life e x he) cur.relations k]
    rw [← docLife_relations, ← docLife_relations]
    exact hR .relations k
  have hother : ∀ e : Effect, ¬k = oid →
      lifeLeOpt (docLife st .relations k)
        (docLife { cur with relations := updateFirst (fun d => d.key = oid) (applyToRelation e) cur.relations } .relations k) := by
    intro e hk
    simp only [docLife_relations]
    rw [find?_updateFirst_other _ _ _ _ (fun x hx => by
      have hxn : x.key = oid := by simpa using hx
      have hk2 : ¬oid = k := fun h => hk h.symm
      exact ⟨by simp [hxn, hk2], by simp [applyToRelation_key, hxn, hk2]⟩)]
    rw [← docLife_relations, ← docLife_relations]
    exact hR .relations k
  cases oe with
  | removeDoc =>
    show lifeLeOpt _ (docLife { cur with relations := cur.relations.filter fun d => d.key ≠ oid } .relations k)
    by_cases hk : k = oid
    · subst hk
      simp only [docLife_relations]
      rw [find?_filter_self_none RelationDoc.key cur.relations k]
      exact lifeLeOpt_none_right _
    · simp only [docLife_relations]
      rw [find?_filter_ne_key RelationDoc.key cur.relations oid k hk]
      rw [← docLife_relations, ← docLife_relations]
      exact hR .relations k
  | setLife l =>
    rcases hgoodLife l rfl with rfl | ⟨rfl, hmem⟩
    · show lifeLeOpt _ (docLife { cur with relations := updateFirst (fun d => d.key = oid) (applyToRelation (.setLife .dead)) cur.relations } .relations k)
      by_cases hk : k = oid
      · subst hk
        simp only [docLife_relations]
        rw [find?_updateFirst_same _ _ _ (fun x hx => by simpa [applyToRelation] using hx)]
        cases cur.relations.find? fun d => d.key = k with
        | none => exact lifeLeOpt_none_right _
        | some x => exact lifeLeOpt_dead_right _
      · exact hother _ hk
    · by_cases hk : k = oid
      · subst hk
        have halive : docLife st .relations k = some Life.alive :=
          holds_lifeIs_alive (check_assert_holds st (Op.mk .relations k oa (.setLife .dying)) hchk _ hmem)
        rw [halive]
        exact lifeLeOpt_alive_left _
      · exact hother _ hk
  | setExposed b => exact hpres _ (by intro l h; cases h)
  | setCharm url force => exact hpres _ (by intro l h; cases h)
  | incUnitCount d => exact hpres _ (by intro l h; cases h)
  | insertUnit u => exact hpres _ (by intro l h; cases h)
  | addSubordinate n => exact hpres _ (by intro l h; cases h)
  | pullSubordinate n => exact hpres _ (by intro l h; cases h)
  | noEffect => exact hpres _ (by intro l h; cases h)

/-- Preservation of store-wide Life monotonicity by one checked, well-formed
operation: a setLife may only set Dying under an Alive assertion or Dead
unconditionally, and an insert must assert the document's absence. -/
theorem applyOp_mono (st cur : Store) (op : Op)
    (hchk : op.check st = true)
    (hgoodLife : ∀ l, op.effect = Effect.setLife l →
      l = Life.dead ∨ (l = Life.dying ∧ AssertElem.lifeIs Life.alive ∈ op.assert))
    (hgoodIns : ∀ u, op.effect = Effect.insertUnit u →
      u.name = op.id ∧ AssertElem.docMissing ∈ op.assert)
    (hR : StoreLifeMono st cur) : StoreLifeMono st (op.apply cur) := by
  intro c k
  rcases op with ⟨oc, oid, oa, oe⟩
  by_cases hcc : oc = c
  · subst hcc
    cases oc with
    | services => exact applyOp_mono_services st cur oid oa oe hchk hgoodLife hR k
    | units => exact applyOp_mono_units st cur oid oa oe hchk hgoodLife hgoodIns hR k
    | relations => exact applyOp_mono_relations st cur oid oa oe hchk hgoodLife hR k
  · rw [docLife_apply_ne ⟨oc, oid, oa, oe⟩ cur c k hcc]
    exact hR c k

theorem foldl_mono (st : Store) (ops : List Op)
    (hchk : ∀ op ∈ ops, op.check st = true)
    (hgood : ∀ op ∈ ops,
      (∀ l, op.effect = Effect.setLife l →
        l = Life.dead ∨ (l = Life.dying ∧ AssertElem.lifeIs Life.alive ∈ op.assert)) ∧
      (∀ u, op.effect = Effect.insertUnit u →
        u.name = op.id ∧ AssertElem.docMissing ∈ op.assert)) :
    ∀ cur, StoreLifeMono st cur →
      StoreLifeMono st (ops.foldl (fun s2 op => op.apply s2) cur) := by
  induction ops with
  | nil => intro cur h; exact h
  | cons op ops ih =>
    intro cur h
    simp only [List.foldl_cons]
    exact ih (fun o ho => hchk o (List.mem_cons_of_mem _ ho))
      (fun o ho => hgood o (List.mem_cons_of_mem _ ho)) _
      (applyOp_mono st cur op (hchk op (List.mem_cons_self _ _))
        (hgood op (List.mem_cons_self _ _)).1 (hgood op (List.mem_cons_self _ _)).2 h)

/-- A committed transaction whose operations satisfy the Life-monotonicity
side conditions leaves every entity's stored Life at least where it was. -/
theorem runTxn_mono (st st2 : Store) (ops : List Op)
    (hgood : ∀ op ∈ ops,
      (∀ l, op.effect = Effect.setLife l →
        l = Life.dead ∨ (l = Life.dying ∧ AssertElem.lifeIs Life.alive ∈ op.assert)) ∧
      (∀ u, op.effect = Effect.insertUnit u →
        u.name = op.id ∧ AssertElem.docMissing ∈ op.assert))
    (h : runTxn st ops = .ok st2) : StoreLifeMono st st2 := by
  unfold runTxn at h
  by_cases hall : (ops.all fun op => op.check st) = true
  · rw [if_pos hall] at h
    have h2 : ops.foldl (fun s2 op => op.apply s2) st = st2 := by
      cases h
      rfl
    rw [← h2]
    rw [List.all_eq_true] at hall
    exact foldl_mono st ops hall hgood st (StoreLifeMono.refl st)
  · rw [if_neg hall] at h
    cases h

theorem refresh_ok {st : Store} {s s2 : ServiceDoc} (h : refresh st s = .ok s2) :
    st.findService s.name = some s2 := by
  unfold refresh at h
  cases hfs : st.findService s.name with
  | none => rw [hfs] at h; cases h
  | some d =>
    rw [hfs] at h
    injection h with h2
    rw [h2]

theorem findService_name {st : Store} {n : String} {d : ServiceDoc}
    (h : st.findService n = some d) : d.name = n := by
  unfold Store.findService at h
  have h2 := List.find?_some h
  simpa using h2

/-- The `Op` side conditions needed by `runTxn_mono`, as one predicate. -/
theorem goodOps_of (op : Op)
    (h1 : ∀ l, op.effect = Effect.setLife l →
      l = Life.dead ∨ (l = Life.dying ∧ AssertElem.lifeIs Life.alive ∈ op.assert))
    (h2 : ∀ u, op.effect = Effect.insertUnit u →
      u.name = op.id ∧ AssertElem.docMissing ∈ op.assert) :
    (∀ l, op.effect = Effect.setLife l →
      l = Life.dead ∨ (l = Life.dying ∧ AssertElem.lifeIs Life.alive ∈ op.assert)) ∧
    (∀ u, op.effect = Effect.insertUnit u →
      u.name = op.id ∧ AssertElem.docMissing ∈ op.assert) := ⟨h1, h2⟩

theorem docLifeEq_newUnitSeq (st : Store) (n : String) :
    ∀ c k, docLife { st with services := updateFirst (fun x => x.name = n) (fun x => { x with unitSeq := x.unitSeq + 1 }) st.services } c k = docLife st c k := by
  intro c k
  cases c with
  | services =>
    simp only [docLife_services]
    exact find?_map_life_updateFirst ServiceDoc.name ServiceDoc.life
      (fun x => x.name = n) (fun x => { x with unitSeq := x.unitSeq + 1 })
      (fun x => rfl) (fun x => rfl) st.services k
  | units => rfl
  | relations => rfl

theorem docLifeEq_unassign (st : Store) (u : UnitDoc) :
    ∀ c k, docLife (UnassignFromMachine st u).1 c k = docLife st c k := by
  intro c k
  cases c with
  | services => rfl
  | units =>
    simp only [UnassignFromMachine, docLife_units]
    exact find?_map_life_updateFirst UnitDoc.name UnitDoc.life
      (fun d => d.name = u.name) (fun d => { d with machineId := "" })
      (fun x => rfl) (fun x => rfl) st.units k
  | relations => rfl

theorem removeUnitOps_good (s : ServiceDoc) (u : UnitDoc) :
    ∀ op ∈ removeUnitOps s u,
      (∀ l, op.effect = Effect.setLife l →
        l = Life.dead ∨ (l = Life.dying ∧ AssertElem.lifeIs Life.alive ∈ op.assert)) ∧
      (∀ v, op.effect = Effect.insertUnit v →
        v.name = op.id ∧ AssertElem.docMissing ∈ op.assert) := by
  intro op hop
  unfold removeUnitOps at hop
  by_cases hp : u.principal ≠ ""
  · rw [if_pos hp] at hop
    simp only [List.mem_append, List.mem_cons, List.mem_singleton, List.not_mem_nil, or_false] at hop
    rcases hop with (rfl | rfl) | rfl <;>
      exact ⟨fun l h => (by cases h), fun v h => (by cases h)⟩
  · rw [if_neg hp] at hop
    simp only [List.append_nil, List.mem_cons, List.mem_singleton, List.not_mem_nil, or_false] at hop
    rcases hop with rfl | rfl <;>
      exact ⟨fun l h => (by cases h), fun v h => (by cases h)⟩

theorem ensureDyingOps_good (s : ServiceDoc) (rels : List RelationDoc) :
    ∀ op ∈ ensureDyingOps s rels,
      (∀ l, op.effect = Effect.setLife l →
        l = Life.dead ∨ (l = Life.dying ∧ AssertElem.lifeIs Life.alive ∈ op.assert)) ∧
      (∀ v, op.effect = Effect.insertUnit v →
        v.name = op.id ∧ AssertElem.docMissing ∈ op.assert) := by
  intro op hop
  unfold ensureDyingOps at hop
  rcases List.mem_cons.mp hop with rfl | hop2
  · refine ⟨fun l h => ?_, fun v h => by cases h⟩
    injection h with h2
    subst h2
    exact Or.inr ⟨rfl, List.mem_cons_self _ _⟩
  · obtain ⟨r, _, rfl⟩ := List.mem_map.mp hop2
    refine ⟨fun l h => ?_, fun v h => by cases h⟩
    injection h with h2
    subst h2
    exact Or.inr ⟨rfl, List.mem_cons_self _ _⟩

theorem ensureDeadOps_good (s : ServiceDoc) :
    ∀ op ∈ ensureDeadAssertOps s ++ [(⟨.services, s.name, [], .setLife .dead⟩ : Op)],
      (∀ l, op.effect = Effect.setLife l →
        l = Life.dead ∨ (l = Life.dying ∧ AssertElem.lifeIs Life.alive ∈ op.assert)) ∧
      (∀ v, op.effect = Effect.insertUnit v →
        v.name = op.id ∧ AssertElem.docMissing ∈ op.assert) := by
  intro op hop
  unfold ensureDeadAssertOps at hop
  simp only [List.cons_append, List.nil_append, List.mem_cons, List.mem_singleton,
    List.not_mem_nil, or_false] at hop
  rcases hop with rfl | rfl
  · exact ⟨fun l h => (by cases h), fun v h => (by cases h)⟩
  · refine ⟨fun l h => ?_, fun v h => by cases h⟩
    injection h with h2
    subst h2
    exact Or.inl rfl

theorem addUnitOps_cases (st : Store) (s : ServiceDoc) (p : String) (b : Bool) :
    (∃ e, addUnitOps st s p b = (.error e, st)) ∨
    (∃ name ops st2, addUnitOps st s p b = (.ok (name, ops), st2) ∧
      (∀ c k, docLife st2 c k = docLife st c k) ∧
      (∀ op ∈ ops,
        (∀ l, op.effect = Effect.setLife l →
          l = Life.dead ∨ (l = Life.dying ∧ AssertElem.lifeIs Life.alive ∈ op.assert)) ∧
        (∀ u, op.effect = Effect.insertUnit u →
          u.name = op.id ∧ AssertElem.docMissing ∈ op.assert))) := by
  cases hch : st.findCharm s.charmURL with
  | none =>
    refine Or.inl ⟨"charm \"" ++ s.charmURL ++ "\" not found", ?_⟩
    simp only [addUnitOps, charmOf, hch]
  | some ch =>
    by_cases hA : (ch.meta.subordinate = true ∧ p = "")
    · refine Or.inl ⟨"service is subordinate", ?_⟩
      simp only [addUnitOps, charmOf, hch]
      rw [if_pos hA]
    · by_cases hB : (¬ch.meta.subordinate = true ∧ ¬p = "")
      · refine Or.inl ⟨"service is not a subordinate", ?_⟩
        simp only [addUnitOps, charmOf, hch]
        rw [if_neg hA, if_pos hB]
      · cases hfs : st.findService s.name with
        | none =>
          refine Or.inl ⟨"cannot increment unit sequence: not found", ?_⟩
          simp only [addUnitOps, charmOf, newUnitName, hch, hfs]
          rw [if_neg hA, if_neg hB]
        | some d =>
          refine Or.inr ⟨s.name ++ "/" ++ toString d.unitSeq,
            (if p ≠ "" then
              ([(⟨.units, s.name ++ "/" ++ toString d.unitSeq, [.docMissing], .insertUnit ⟨s.name ++ "/" ++ toString d.unitSeq, s.name, .alive, .pending, p, [], "", 0⟩⟩ : Op), ⟨.services, s.name, isAlive, .incUnitCount 1⟩] ++ [⟨.units, p, (if b then isAlive ++ [.noSubordinateWithPrefix (s.name ++ "/")] else isAlive), .addSubordinate (s.name ++ "/" ++ toString d.unitSeq)⟩])
            else
              [(⟨.units, s.name ++ "/" ++ toString d.unitSeq, [.docMissing], .insertUnit ⟨s.name ++ "/" ++ toString d.unitSeq, s.name, .alive, .pending, p, [], "", 0⟩⟩ : Op), ⟨.services, s.name, isAlive, .incUnitCount 1⟩]),
            { st with services := updateFirst (fun x => x.name = s.name) (fun x => { x with unitSeq := x.unitSeq + 1 }) st.services },
            ?_, ?_, ?_⟩
          · simp only [addUnitOps, charmOf, newUnitName, hch, hfs]
            rw [if_neg hA, if_neg hB]
          · exact docLifeEq_newUnitSeq st s.name
          · intro op hop
            by_cases hp : p ≠ ""
            · rw [if_pos hp] at hop
              simp only [List.mem_append, List.mem_cons, List.mem_singleton,
                List.not_mem_nil, or_false] at hop
              rcases hop with (rfl | rfl) | rfl
              · refine ⟨fun l h => (by cases h), fun u h => ?_⟩
                injection h with h2
                subst h2
                exact ⟨rfl, List.mem_singleton.mpr rfl⟩
              · exact ⟨fun l h => (by cases h), fun u h => (by cases h)⟩
              · exact ⟨fun l h => (by cases h), fun u h => (by cases h)⟩
            · rw [if_neg hp] at hop
              simp only [List.mem_cons, List.mem_singleton, List.not_mem_nil, or_false] at hop
              rcases hop with rfl | rfl
              · refine ⟨fun l h => (by cases h), fun u h => ?_⟩
                injection h with h2
                subst h2
                exact ⟨rfl, List.mem_singleton.mpr rfl⟩
              · exact ⟨fun l h => (by cases h), fun u h => (by cases h)⟩

/-- Life monotonicity of the `EnsureDying` retry loop, for any fuel: the
store only moves entities forward, and the cached Life never decreases
(given a cache that is not ahead of the store). -/
theorem ensureDying_mono (fuel : Nat) : ∀ (st : Store) (s : ServiceDoc),
    cacheNotAhead st s →
    StoreLifeMono st (ensureDying fuel st s).2.1 ∧
    Life.le s.life (ensureDying fuel st s).2.2.life := by
  induction fuel with
  | zero => intro st s _; exact ⟨StoreLifeMono.refl st, Life.le_refl _⟩
  | succ f ih =>
    intro st s hc
    rw [ensureDying]
    by_cases halive : s.life = Life.alive
    · rw [if_pos halive]
      simp only [ne_eq]
      have hretry : ∀ s2, refresh st s = .ok s2 →
          StoreLifeMono st (ensureDying f st s2).2.1 ∧
          Life.le s.life (ensureDying f st s2).2.2.life := by
        intro s2 hrf
        have hs2 : st.findService s.name = some s2 := refresh_ok hrf
        have hname : s2.name = s.name := findService_name hs2
        have hc2 : cacheNotAhead st s2 := by
          intro d hd
          rw [hname, hs2] at hd
          injection hd with hd2
          rw [← hd2]
          exact Life.le_refl _
        have hle : s.life.le s2.life := hc s2 hs2
        obtain ⟨m1, m2⟩ := ih st s2 hc2
        exact ⟨m1, Life.le_trans hle m2⟩
      by_cases hmm : ¬((st.relationsOf s.name).length : Int) = s.relationCount
      · rw [if_pos hmm]
        cases hrf : refresh st s with
        | error e => simp only [hrf]; exact ⟨StoreLifeMono.refl st, Life.le_refl _⟩
        | ok s2 => simp only [hrf]; exact hretry s2 hrf
      · rw [if_neg hmm]
        cases htxn : runTxn st (ensureDyingOps s (st.relationsOf s.name)) with
        | error e =>
          cases e
          simp only [htxn]
          cases hrf : refresh st s with
          | error e2 => simp only [hrf]; exact ⟨StoreLifeMono.refl st, Life.le_refl _⟩
          | ok s2 => simp only [hrf]; exact hretry s2 hrf
        | ok st2 =>
          simp only [htxn]
          have hfin1 : (ensureDying f st2 { s with life := Life.dying }).2.1 = st2 := by
            cases f with
            | zero => rfl
            | succ f2 => simp [ensureDying]
          have hfin2 : (ensureDying f st2 { s with life := Life.dying }).2.2 =
              { s with life := Life.dying } := by
            cases f with
            | zero => rfl
            | succ f2 => simp [ensureDying]
          rw [hfin1, hfin2]
          refine ⟨runTxn_mono st st2 _ (ensureDyingOps_good s _) htxn, ?_⟩
          rw [halive]
          exact Life.alive_le _
    · rw [if_neg halive]
      exact ⟨StoreLifeMono.refl st, Life.le_refl _⟩

/-- **C4.** Along every operation of the Service entity layer (the step
relation `execCall`), stored entity Life values only move forward along
Alive → Dying → Dead (an entity present before and after a step never
regresses), the cached Life never decreases, and Dead is terminal: an
entity stored as Dead is, after any step, either removed or still Dead. -/
theorem claim4_life_monotone (call : OpCall) (st : Store) (s : ServiceDoc)
    (hcache : cacheNotAhead st s) :
    StoreLifeMono st (execCall call st s).2.1 ∧
    Life.le s.life (execCall call st s).2.2.life ∧
    (∀ c k, docLife st c k = some Life.dead →
      docLife (execCall call st s).2.1 c k = none ∨
      docLife (execCall call st s).2.1 c k = some Life.dead) := by
  have main : StoreLifeMono st (execCall call st s).2.1 ∧
      Life.le s.life (execCall call st s).2.2.life := by
    cases call with
    | ensureDying fuel => exact ensureDying_mono fuel st s hcache
    | ensureDead =>
      show StoreLifeMono st (EnsureDead st s).2.1 ∧ Life.le s.life (EnsureDead st s).2.2.life
      unfold EnsureDead
      cases hed : ensureDead st .services s.name "service" (ensureDeadAssertOps s)
          "service still has units and/or relations" with
      | error e =>
        simp only [hed]
        exact ⟨StoreLifeMono.refl st, Life.le_refl _⟩
      | ok st2 =>
        simp only [hed]
        refine ⟨?_, Life.le_dead _⟩
        unfold ensureDead at hed
        cases htxn : runTxn st (ensureDeadAssertOps s ++ [⟨.services, s.name, [], .setLife .dead⟩]) with
        | ok st3 =>
          rw [htxn] at hed
          injection hed with h2
          rw [← h2]
          exact runTxn_mono st st3 _ (ensureDeadOps_good s) htxn
        | error e =>
          cases e
          rw [htxn] at hed
          cases hv : st.docView .services s.name with
          | none =>
            rw [hv] at hed
            have hed2 : (Except.error ("service" ++ " not found") : Except String Store) =
                Except.ok st2 := hed
            exact Except.noConfusion hed2
          | some d =>
            rw [hv] at hed
            have hed2 : (if d.life = Life.dead then (Except.ok st : Except String Store)
                else Except.error "service still has units and/or relations") =
                Except.ok st2 := hed
            by_cases hdead : d.life = Life.dead
            · rw [if_pos hdead] at hed2
              injection hed2 with h2
              rw [← h2]
              exact StoreLifeMono.refl st
            · rw [if_neg hdead] at hed2
              exact Except.noConfusion hed2
    | setExposed v =>
      show StoreLifeMono st (setExposed st s v).2.1 ∧ Life.le s.life (setExposed st s v).2.2.life
      unfold setExposed
      cases htxn : runTxn st [⟨.services, s.name, isAlive, .setExposed v⟩] with
      | error e =>
        simp only [htxn]
        exact ⟨StoreLifeMono.refl st, Life.le_refl _⟩
      | ok st2 =>
        simp only [htxn]
        refine ⟨runTxn_mono st st2 _ ?_ htxn, Life.le_refl _⟩
        intro op hop
        rw [List.mem_singleton] at hop
        subst hop
        exact ⟨fun l h => (by cases h), fun u h => (by cases h)⟩
    | setCharm ch force =>
      show StoreLifeMono st (SetCharm st s ch force).2.1 ∧
        Life.le s.life (SetCharm st s ch force).2.2.life
      unfold SetCharm
      cases htxn : runTxn st [⟨.services, s.name, isAlive, .setCharm ch.url force⟩] with
      | error e =>
        simp only [htxn]
        exact ⟨StoreLifeMono.refl st, Life.le_refl _⟩
      | ok st2 =>
        simp only [htxn]
        refine ⟨runTxn_mono st st2 _ ?_ htxn, Life.le_refl _⟩
        intro op hop
        rw [List.mem_singleton] at hop
        subst hop
        exact ⟨fun l h => (by cases h), fun u h => (by cases h)⟩
    | addUnit =>
      refine ⟨?_, Life.le_refl _⟩
      show StoreLifeMono st (AddUnit st s).2
      unfold AddUnit
      rcases addUnitOps_cases st s "" false with ⟨e, heq⟩ | ⟨name, ops, st2, heq, hdl, hgood⟩
      · rw [heq]
        exact StoreLifeMono.refl st
      · rw [heq]
        cases htxn : runTxn st2 ops with
        | ok st3 =>
          simp only [htxn]
          exact mono_trans_eq hdl (runTxn_mono st2 st3 ops hgood htxn)
        | error e =>
          cases e
          simp only [htxn]
          cases hga : getAlive st2 .services s.name with
          | error e2 => simp only [hga]; exact mono_of_docLifeEq hdl
          | ok alive2 =>
            cases alive2 <;> simp only [hga] <;> exact mono_of_docLifeEq hdl
    | addUnitSubordinateTo principal =>
      refine ⟨?_, Life.le_refl _⟩
      show StoreLifeMono st (AddUnitSubordinateTo st s principal).2
      unfold AddUnitSubordinateTo charmOf
      cases hch : st.findCharm s.charmURL with
      | none => exact StoreLifeMono.refl st
      | some ch =>
        simp only [hch]
        by_cases hsub : ¬ch.meta.subordinate = true
        · rw [if_pos hsub]
          exact StoreLifeMono.refl st
        · rw [if_neg hsub]
          by_cases hpr : ¬IsPrincipal principal = true
          · rw [if_pos hpr]
            exact StoreLifeMono.refl st
          · rw [if_neg hpr]
            rcases addUnitOps_cases st s principal.name false with
              ⟨e, heq⟩ | ⟨name, ops, st2, heq, hdl, hgood⟩
            · rw [heq]
              exact StoreLifeMono.refl st
            · rw [heq]
              cases htxn : runTxn st2 ops with
              | ok st3 =>
                simp only [htxn]
                exact mono_trans_eq hdl (runTxn_mono st2 st3 ops hgood htxn)
              | error e =>
                cases e
                simp only [htxn]
                cases hga : getAlive st2 .services s.name with
                | error e2 => simp only [hga]; exact mono_of_docLifeEq hdl
                | ok alive2 =>
                  cases alive2
                  · simp only [hga]
                    exact mono_of_docLifeEq hdl
                  · simp only [hga]
                    cases hga2 : getAlive st2 .units principal.name with
                    | error e3 => simp only [hga2]; exact mono_of_docLifeEq hdl
                    | ok alive3 =>
                      cases alive3 <;> simp only [hga2] <;> exact mono_of_docLifeEq hdl
    | removeUnit u =>
      refine ⟨?_, Life.le_refl _⟩
      show StoreLifeMono st (RemoveUnit st s u).2
      unfold RemoveUnit
      by_cases h1 : u.life ≠ Life.dead
      · rw [if_pos h1]
        exact StoreLifeMono.refl st
      · rw [if_neg h1]
        by_cases h2 : u.service ≠ s.name
        · rw [if_pos h2]
          exact StoreLifeMono.refl st
        · rw [if_neg h2]
          have hdl : ∀ c k,
              docLife (if u.machineId ≠ "" then UnassignFromMachine st u else (st, u)).1 c k =
              docLife st c k := by
            by_cases hm : u.machineId ≠ ""
            · rw [if_pos hm]
              exact docLifeEq_unassign st u
            · rw [if_neg hm]
              intro c k
              rfl
          cases htxn : runTxn (if u.machineId ≠ "" then UnassignFromMachine st u else (st, u)).1
              (removeUnitOps s (if u.machineId ≠ "" then UnassignFromMachine st u else (st, u)).2) with
          | ok st3 =>
            simp only [htxn]
            exact mono_trans_eq hdl (runTxn_mono _ st3 _ (removeUnitOps_good s _) htxn)
          | error e =>
            cases e
            simp only [htxn]
            by_cases hcnt : ((if u.machineId ≠ "" then UnassignFromMachine st u else (st, u)).1.units.filter
                fun d => d.name = (if u.machineId ≠ "" then UnassignFromMachine st u else (st, u)).2.name).length > 0
            · rw [if_pos hcnt]
              exact mono_of_docLifeEq hdl
            · rw [if_neg hcnt]
              exact mono_of_docLifeEq hdl
    | refresh =>
      show StoreLifeMono st (execCall .refresh st s).2.1 ∧
        Life.le s.life (execCall .refresh st s).2.2.life
      unfold execCall
      cases hrf : refresh st s with
      | error e =>
        simp only [hrf]
        exact ⟨StoreLifeMono.refl st, Life.le_refl _⟩
      | ok s2 =>
        simp only [hrf]
        exact ⟨StoreLifeMono.refl st, hcache s2 (refresh_ok hrf)⟩
  refine ⟨main.1, main.2, fun c k hd => ?_⟩
  have h := main.1 c k
  rw [hd] at h
  exact dead_terminal h

/-- Witness for C4: one concrete step — `EnsureDead` on a dependent-free
Dying service — moves the stored Life forward and keeps Dead terminal. -/
theorem claim4_life_monotone_witness :
    StoreLifeMono ⟨[⟨"wp", "cs:wp", false, .dying, 0, 0, 0, false, 5⟩], [], [], []⟩
      (execCall .ensureDead ⟨[⟨"wp", "cs:wp", false, .dying, 0, 0, 0, false, 5⟩], [], [], []⟩
        ⟨"wp", "cs:wp", false, .dying, 0, 0, 0, false, 5⟩).2.1 ∧
    Life.le Life.dying
      (execCall .ensureDead ⟨[⟨"wp", "cs:wp", false, .dying, 0, 0, 0, false, 5⟩], [], [], []⟩
        ⟨"wp", "cs:wp", false, .dying, 0, 0, 0, false, 5⟩).2.2.life :=
  have h := claim4_life_monotone .ensureDead
    ⟨[⟨"wp", "cs:wp", false, .dying, 0, 0, 0, false, 5⟩], [], [], []⟩
    ⟨"wp", "cs:wp", false, .dying, 0, 0, 0, false, 5⟩
    (fun d hd => by
      injection hd with hd2
      rw [← hd2]
      exact Life.le_refl _)
  ⟨h.1, h.2.1⟩

/-! ## C1: EnsureDying -/

/-- **C1.** `EnsureDying` is a no-op returning success when the cached Life
is Dying or Dead.  When it is Alive (and the cached snapshot agrees with
the store), it commits one atomic transaction — the batch
`ensureDyingOps` — whose operations are exactly: assert the service is
still Alive with unchanged revision and set its Life to Dying, and, for
every relation of the service whose Life is Alive, assert that relation is
Alive and set its Life to Dying.  After the commit the service is Dying,
every previously-Alive relation of the service is Dying, and nothing else
in the store has changed. -/
theorem claim1_ensureDying (st : Store) (s : ServiceDoc)
    (hd : st.findService s.name = some s)
    (hcount : ((st.relationsOf s.name).length : Int) = s.relationCount)
    (hnodup : (st.relations.map RelationDoc.key).Nodup) :
    (s.life ≠ Life.alive → ∀ fuel, ensureDying (fuel + 1) st s = (.ok (), st, s)) ∧
    (s.life = Life.alive →
      ∃ st2, ensureDying 2 st s = (.ok (), st2, { s with life := Life.dying }) ∧
        runTxn st (ensureDyingOps s (st.relationsOf s.name)) = .ok st2 ∧
        (∀ op ∈ ensureDyingOps s (st.relationsOf s.name),
          op = ⟨.services, s.name, [.lifeIs .alive, .txnRevnoIs s.txnRevno], .setLife .dying⟩ ∨
          ∃ r ∈ st.relationsOf s.name, r.life = Life.alive ∧
            op = ⟨.relations, r.key, [.lifeIs .alive], .setLife .dying⟩) ∧
        st2.findService s.name = some { s with life := Life.dying, txnRevno := s.txnRevno + 1 } ∧
        (∀ n, n ≠ s.name → st2.findService n = st.findService n) ∧
        (∀ r ∈ st.relationsOf s.name, r.life = Life.alive →
          st2.findRelation r.key = some { r with life := Life.dying, txnRevno := r.txnRevno + 1 }) ∧
        (∀ r ∈ st.relations, (r ∉ st.relationsOf s.name ∨ r.life ≠ Life.alive) →
          st2.findRelation r.key = some r) ∧
        st2.units = st.units ∧ st2.charms = st.charms) := by
  constructor
  · intro hlife fuel
    rw [ensureDying]
    simp [hlife]
  · intro halive
    have hLsub : ∀ r ∈ (st.relationsOf s.name).filter (fun x => x.life = Life.alive),
        r ∈ st.relations ∧ (r.endpoints.any fun ep => ep.serviceName = s.name) = true ∧
        r.life = Life.alive := by
      intro r hr
      have h1 := List.mem_filter.mp hr
      have h2 : r ∈ st.relations ∧ (r.endpoints.any fun ep => ep.serviceName = s.name) = true := by
        have := h1.1
        unfold Store.relationsOf at this
        have h3 := List.mem_filter.mp this
        exact ⟨h3.1, by simpa using h3.2⟩
      exact ⟨h2.1, h2.2, by simpa using h1.2⟩
    have hfindr : ∀ r ∈ st.relations,
        st.relations.find? (fun d => d.key = r.key) = some r := by
      intro r hr
      exact find?_key_self RelationDoc.key st.relations hnodup r hr
    have hall : ((ensureDyingOps s (st.relationsOf s.name)).all fun op => op.check st) = true := by
      rw [ensureDyingOps, List.all_cons]
      refine (Bool.and_eq_true _ _).mpr ⟨?_, ?_⟩
      · simp [Op.check, AssertElem.holds, Store.docView, hd, halive]
      · rw [List.all_eq_true]
        intro op hop
        obtain ⟨r, hr, rfl⟩ := List.mem_map.mp hop
        obtain ⟨hrmem, _, hralive⟩ := hLsub r hr
        simp [Op.check, isAlive, AssertElem.holds, Store.docView, Store.findRelation,
          hfindr r hrmem, hralive]
    have hrelops : ∀ op ∈ ((st.relationsOf s.name).filter fun x => x.life = Life.alive).map
        (fun r => (⟨.relations, r.key, isAlive, .setLife .dying⟩ : Op)),
        op.c = Coll.relations ∧ op.effect = Effect.setLife .dying := by
      intro op hop
      obtain ⟨r, _, rfl⟩ := List.mem_map.mp hop
      exact ⟨rfl, rfl⟩
    have hLnodup : ((((st.relationsOf s.name).filter fun x => x.life = Life.alive)).map RelationDoc.key).Nodup := by
      refine List.Nodup.sublist (List.Sublist.map RelationDoc.key ?_) hnodup
      exact List.Sublist.trans (List.filter_sublist _) (by unfold Store.relationsOf; exact List.filter_sublist _)
    have hfold : (ensureDyingOps s (st.relationsOf s.name)).foldl (fun s2 op => op.apply s2) st =
        { st with
          services := updateFirst (fun d => d.name = s.name) (applyToService (.setLife .dying)) st.services,
          relations := ((st.relationsOf s.name).filter fun x => x.life = Life.alive).foldl (fun acc r => updateFirst (fun d => d.key = r.key) (applyToRelation (.setLife .dying)) acc) st.relations } := by
      rw [ensureDyingOps, List.foldl_cons]
      rw [foldl_relOps _ hrelops _]
      rw [List.foldl_map]
      rfl
    have htxn : runTxn st (ensureDyingOps s (st.relationsOf s.name)) =
        .ok { st with
          services := updateFirst (fun d => d.name = s.name) (applyToService (.setLife .dying)) st.services,
          relations := ((st.relationsOf s.name).filter fun x => x.life = Life.alive).foldl (fun acc r => updateFirst (fun d => d.key = r.key) (applyToRelation (.setLife .dying)) acc) st.relations } := by
      rw [runTxn, if_pos hall, hfold]
    refine ⟨_, ?_, htxn, ?_, ?_, ?_, ?_, ?_, rfl, rfl⟩
    · show ensureDying 2 st s = _
      rw [show (2 : Nat) = Nat.succ 1 from rfl]
      rw [ensureDying, if_pos halive]
      simp only [ne_eq]
      rw [if_neg (not_not_intro hcount), htxn]
      simp [ensureDying]
    · intro op hop
      rw [ensureDyingOps] at hop
      rcases List.mem_cons.mp hop with rfl | hop2
      · exact Or.inl rfl
      · obtain ⟨r, hr, rfl⟩ := List.mem_map.mp hop2
        have h1 := List.mem_filter.mp hr
        exact Or.inr ⟨r, h1.1, by simpa using h1.2, rfl⟩
    · show Store.findService _ s.name = _
      simp only [Store.findService]
      rw [find?_updateFirst_same]
      · unfold Store.findService at hd
        simp [hd, applyToService]
      · intro x hx
        simpa [applyToService] using hx
    · intro n hn
      show Store.findService _ n = _
      simp only [Store.findService]
      rw [find?_updateFirst_other]
      intro x hx
      have hxname : x.name = s.name := by simpa using hx
      have hn2 : ¬s.name = n := fun h => hn h.symm
      exact ⟨by simp [hxname, hn2], by simp [applyToService, hxname, hn2]⟩
    · intro r hr hralive
      have hrL : r ∈ (st.relationsOf s.name).filter (fun x => x.life = Life.alive) :=
        List.mem_filter.mpr ⟨hr, by simpa using hralive⟩
      have hrmem := (hLsub r hrL).1
      show Store.findRelation _ r.key = _
      simp only [Store.findRelation]
      rw [(relFold_mem _ hLnodup st.relations r.key).1 (List.mem_map_of_mem RelationDoc.key hrL)]
      rw [hfindr r hrmem]
      simp [applyToRelation]
    · intro r hr hrnot
      have hrK : r.key ∉ (((st.relationsOf s.name).filter fun x => x.life = Life.alive)).map RelationDoc.key := by
        intro hmem
        obtain ⟨r2, hr2, hkey⟩ := List.mem_map.mp hmem
        have hr2mem := (hLsub r2 hr2).1
        have : r2 = r := List.inj_on_of_nodup_map hnodup hr2mem hr hkey
        subst this
        rcases hrnot with hno | hno
        · exact hno (List.mem_filter.mp hr2).1
        · exact hno (by simpa using (List.mem_filter.mp hr2).2)
      show Store.findRelation _ r.key = _
      simp only [Store.findRelation]
      rw [(relFold_mem _ hLnodup st.relations r.key).2 hrK]
      exact hfindr r hr

/-- Witness for C1: the spec's example scenario — Alive service "wordpress"
with one Alive relation to "mysql"; one commit makes both Dying. -/
theorem claim1_ensureDying_witness :
    ∃ st2, ensureDying 2
        ⟨[⟨"wordpress", "cs:wp", false, .alive, 0, 0, 1, false, 5⟩], [],
          [⟨"wordpress:db mysql:db", [⟨"wordpress", "mysql", "db", .requirer, .global⟩], .alive, 3⟩], []⟩
        ⟨"wordpress", "cs:wp", false, .alive, 0, 0, 1, false, 5⟩ =
      (.ok (), st2, ⟨"wordpress", "cs:wp", false, .dying, 0, 0, 1, false, 5⟩) ∧
      st2.findService "wordpress" = some ⟨"wordpress", "cs:wp", false, .dying, 0, 0, 1, false, 6⟩ ∧
      st2.findRelation "wordpress:db mysql:db" =
        some ⟨"wordpress:db mysql:db", [⟨"wordpress", "mysql", "db", .requirer, .global⟩], .dying, 4⟩ := by
  obtain ⟨st2, h1, _, _, h4, _, h6, _, _, _⟩ := (claim1_ensureDying
    ⟨[⟨"wordpress", "cs:wp", false, .alive, 0, 0, 1, false, 5⟩], [],
      [⟨"wordpress:db mysql:db", [⟨"wordpress", "mysql", "db", .requirer, .global⟩], .alive, 3⟩], []⟩
    ⟨"wordpress", "cs:wp", false, .alive, 0, 0, 1, false, 5⟩
    (by rfl) (by rfl) (by decide)).2 (by rfl)
  refine ⟨st2, h1, by simpa using h4, ?_⟩
  have := h6 ⟨"wordpress:db mysql:db", [⟨"wordpress", "mysql", "db", .requirer, .global⟩], .alive, 3⟩ (by decide) (by rfl)
  simpa using this

/-! ## C7: SetExposed / ClearExposed -/

/-- **C7.** `SetExposed` and `ClearExposed` delegate to `setExposed`, which
fails with the "not alive" error whenever the stored service's Life is not
Alive at commit time (store and cache untouched); otherwise it commits a
single-operation transaction asserting Life == Alive and setting only the
exposed flag: no other service is touched, no unit, relation or charm
document changes, and the target document changes only in its exposed flag
(plus the store's transaction revision counter). -/
theorem claim7_setExposed (st : Store) (s d : ServiceDoc) (v : Bool)
    (hd : st.findService s.name = some d) :
    SetExposed st s = setExposed st s true ∧
    ClearExposed st s = setExposed st s false ∧
    (d.life ≠ Life.alive →
      setExposed st s v =
        (.error ("cannot set exposed flag for service \"" ++ s.name ++ "\" to "
          ++ boolString v ++ ": " ++ "not alive"), st, s)) ∧
    (d.life = Life.alive →
      ∃ st2, setExposed st s v = (.ok (), st2, { s with exposed := v }) ∧
        st2.findService s.name =
          some { d with exposed := v, txnRevno := d.txnRevno + 1 } ∧
        (∀ n, n ≠ s.name → st2.findService n = st.findService n) ∧
        st2.units = st.units ∧ st2.relations = st.relations ∧ st2.charms = st.charms) := by
  refine ⟨rfl, rfl, ?_, ?_⟩
  · intro hlife
    have hcheck : (Op.check ⟨.services, s.name, isAlive, .setExposed v⟩ st) = false := by
      simp [Op.check, isAlive, AssertElem.holds, Store.docView, hd]
      intro h
      exact absurd h hlife
    simp [setExposed, runTxn, hcheck, onAbort, errNotAlive]
  · intro hlife
    have hcheck : (Op.check ⟨.services, s.name, isAlive, .setExposed v⟩ st) = true := by
      simp [Op.check, isAlive, AssertElem.holds, Store.docView, hd, hlife]
    refine ⟨{ st with services := updateFirst (fun x => x.name = s.name) (applyToService (.setExposed v)) st.services }, ?_, ?_, ?_, rfl, rfl, rfl⟩
    · simp [setExposed, runTxn, hcheck, Op.apply]
    · show Store.findService _ s.name = _
      simp only [Store.findService]
      rw [find?_updateFirst_same]
      · unfold Store.findService at hd
        simp [hd, applyToService]
      · intro x hx
        simpa [applyToService] using hx
    · intro n hn
      show Store.findService _ n = _
      simp only [Store.findService]
      rw [find?_updateFirst_other]
      intro x hx
      have hxname : x.name = s.name := by simpa using hx
      have hn2 : ¬s.name = n := fun h => hn h.symm
      refine ⟨by simp [hxname, hn2], ?_⟩
      simp only [applyToService]
      simp [hxname, hn2]

/-! ## C9: failed submissions leave the cached snapshot unchanged -/

/-- **C9.** For `setExposed` (hence `SetExposed`/`ClearExposed`), `SetCharm`
and `EnsureDead`, an error return leaves both the store and the in-memory
cached snapshot exactly as they were: the cached `Exposed`, `CharmURL`,
`ForceCharm` and `Life` fields are updated only after a successful commit. -/
theorem claim9_error_frame (st : Store) (s : ServiceDoc) (v : Bool)
    (ch : CharmDoc) (force : Bool) :
    (∀ e st2 s2, setExposed st s v = (.error e, st2, s2) → st2 = st ∧ s2 = s) ∧
    (∀ e st2 s2, SetCharm st s ch force = (.error e, st2, s2) → st2 = st ∧ s2 = s) ∧
    (∀ e st2 s2, EnsureDead st s = (.error e, st2, s2) → st2 = st ∧ s2 = s) := by
  refine ⟨?_, ?_, ?_⟩
  · intro e st2 s2 h
    unfold setExposed at h
    cases hr : runTxn st [⟨.services, s.name, isAlive, .setExposed v⟩] with
    | error te => rw [hr] at h; simp at h; exact ⟨h.2.1.symm, h.2.2.symm⟩
    | ok st3 => rw [hr] at h; simp at h
  · intro e st2 s2 h
    unfold SetCharm at h
    cases hr : runTxn st [⟨.services, s.name, isAlive, .setCharm ch.url force⟩] with
    | error te => rw [hr] at h; simp at h; exact ⟨h.2.1.symm, h.2.2.symm⟩
    | ok st3 => rw [hr] at h; simp at h
  · intro e st2 s2 h
    unfold EnsureDead at h
    cases hr : ensureDead st .services s.name "service" (ensureDeadAssertOps s)
        "service still has units and/or relations" with
    | error te => rw [hr] at h; simp at h; exact ⟨h.2.1.symm, h.2.2.symm⟩
    | ok st3 => rw [hr] at h; simp at h

/-- Witness for C9: a Dying service's failed `SetExposed` and an Alive
service with a unit's failed `EnsureDead` leave store and cache untouched. -/
theorem claim9_error_frame_witness :
    (setExposed ⟨[⟨"wp", "cs:wp", false, .dying, 0, 0, 0, false, 5⟩], [], [], []⟩
        ⟨"wp", "cs:wp", false, .dying, 0, 0, 0, false, 5⟩ true).2.1 =
      ⟨[⟨"wp", "cs:wp", false, .dying, 0, 0, 0, false, 5⟩], [], [], []⟩ ∧
    (EnsureDead ⟨[⟨"wp", "cs:wp", false, .alive, 1, 1, 0, false, 5⟩], [], [], []⟩
        ⟨"wp", "cs:wp", false, .alive, 1, 1, 0, false, 5⟩).2.2 =
      ⟨"wp", "cs:wp", false, .alive, 1, 1, 0, false, 5⟩ := by
  constructor
  · have h := (claim9_error_frame
      ⟨[⟨"wp", "cs:wp", false, .dying, 0, 0, 0, false, 5⟩], [], [], []⟩
      ⟨"wp", "cs:wp", false, .dying, 0, 0, 0, false, 5⟩ true
      ⟨"c", ⟨false, [], [], []⟩⟩ false).1
      "cannot set exposed flag for service \"wp\" to true: not alive"
      ⟨[⟨"wp", "cs:wp", false, .dying, 0, 0, 0, false, 5⟩], [], [], []⟩
      ⟨"wp", "cs:wp", false, .dying, 0, 0, 0, false, 5⟩ (by rfl)
    rw [show (setExposed ⟨[⟨"wp", "cs:wp", false, .dying, 0, 0, 0, false, 5⟩], [], [], []⟩ ⟨"wp", "cs:wp", false, .dying, 0, 0, 0, false, 5⟩ true).2.1 = ⟨[⟨"wp", "cs:wp", false, .dying, 0, 0, 0, false, 5⟩], [], [], []⟩ from by rfl]
  · have h := (claim9_error_frame
      ⟨[⟨"wp", "cs:wp", false, .alive, 1, 1, 0, false, 5⟩], [], [], []⟩
      ⟨"wp", "cs:wp", false, .alive, 1, 1, 0, false, 5⟩ true
      ⟨"c", ⟨false, [], [], []⟩⟩ false).2.2
      "service still has units and/or relations"
      ⟨[⟨"wp", "cs:wp", false, .alive, 1, 1, 0, false, 5⟩], [], [], []⟩
      ⟨"wp", "cs:wp", false, .alive, 1, 1, 0, false, 5⟩ (by rfl)
    exact h.2

/-! ## C2: EnsureDead with dependents -/

/-- **C2.** For a service whose stored unit count or relation count is
nonzero at commit time (under the data-model invariant that a Dead service
has no dependents), `EnsureDead` submits a transaction asserting
`unitcount == 0` and `relationcount == 0`, observes the abort, and returns
the "has dependents" error to the caller — the store and the cached
snapshot are unchanged, so the service is not transitioned to Dead. -/
theorem claim2_ensureDead (st : Store) (s d : ServiceDoc)
    (hd : st.findService s.name = some d)
    (hinv : d.life = Life.dead → d.unitCount = 0 ∧ d.relationCount = 0)
    (hcounts : d.unitCount ≠ 0 ∨ d.relationCount ≠ 0) :
    EnsureDead st s = (.error "service still has units and/or relations", st, s) ∧
    ensureDeadAssertOps s =
      [⟨.services, s.name, [.unitCountIs 0, .relationCountIs 0], .noEffect⟩] := by
  have hlife : d.life ≠ Life.dead := by
    intro h
    rcases hinv h with ⟨h1, h2⟩
    rcases hcounts with hc | hc
    · exact hc h1
    · exact hc h2
  have hchk : (Op.check ⟨.services, s.name, [.unitCountIs 0, .relationCountIs 0], .noEffect⟩ st) = false := by
    simp [Op.check, AssertElem.holds, Store.docView, hd]
    intro h1
    rcases hcounts with hc | hc
    · exact absurd h1 hc
    · intro h2; exact absurd h2 hc
  refine ⟨?_, rfl⟩
  have habort : runTxn st (ensureDeadAssertOps s ++ [⟨.services, s.name, [], .setLife .dead⟩]) = .error .aborted := by
    simp [runTxn, ensureDeadAssertOps, hchk]
  simp [EnsureDead, ensureDead, habort, Store.docView, hd, hlife]

/-- Witness for C2: an Alive service with one unit rejects `EnsureDead`. -/
theorem claim2_ensureDead_witness :
    EnsureDead ⟨[⟨"wp", "cs:wp", false, .alive, 1, 1, 0, false, 5⟩], [], [], []⟩
        ⟨"wp", "cs:wp", false, .alive, 1, 1, 0, false, 5⟩ =
      (.error "service still has units and/or relations",
        ⟨[⟨"wp", "cs:wp", false, .alive, 1, 1, 0, false, 5⟩], [], [], []⟩,
        ⟨"wp", "cs:wp", false, .alive, 1, 1, 0, false, 5⟩) :=
  (claim2_ensureDead ⟨[⟨"wp", "cs:wp", false, .alive, 1, 1, 0, false, 5⟩], [], [], []⟩
    ⟨"wp", "cs:wp", false, .alive, 1, 1, 0, false, 5⟩
    ⟨"wp", "cs:wp", false, .alive, 1, 1, 0, false, 5⟩
    (by rfl) (by intro h; cases h) (by left; decide)).1

/-! ## C3: unit-name allocation -/

/-- **C3 counterexample.** With the unit-sequence counter at 0, allocation
returns the name "wordpress/0" and leaves the counter at 1: the name uses
the counter value from before the increment, not the post-increment value 1
claimed (the `mgo.Change` has no `ReturnNew`, so the pre-update document is
returned). -/
theorem claim3_counterexample :
    newUnitName
        ⟨[⟨"wordpress", "cs:wp", false, .alive, 0, 0, 0, false, 0⟩], [], [], []⟩
        ⟨"wordpress", "cs:wp", false, .alive, 0, 0, 0, false, 0⟩ =
      .ok ("wordpress/0",
        ⟨[⟨"wordpress", "cs:wp", false, .alive, 1, 0, 0, false, 0⟩], [], [], []⟩) ∧
    ("wordpress/" ++ toString (1 : Int)) = "wordpress/1" ∧
    ("wordpress/0" : String) ≠ "wordpress/1" := by
  refine ⟨by rfl, by rfl, by decide⟩

/-- **C3 amended.** Unit-name allocation performs one atomic
increment-and-read on the service document: the stored counter goes up by
exactly one, nothing else in the store changes, and the allocated name is
`<service-name>/<n>` where `n` is the counter value before the increment. -/
theorem claim3_newUnitName (st : Store) (s d : ServiceDoc)
    (hd : st.findService s.name = some d) :
    ∃ st2, newUnitName st s = .ok (s.name ++ "/" ++ toString d.unitSeq, st2) ∧
      st2.findService s.name = some { d with unitSeq := d.unitSeq + 1 } ∧
      (∀ n, n ≠ s.name → st2.findService n = st.findService n) ∧
      st2.units = st.units ∧ st2.relations = st.relations ∧ st2.charms = st.charms := by
  refine ⟨{ st with services := updateFirst (fun x => x.name = s.name) (fun x => { x with unitSeq := x.unitSeq + 1 }) st.services }, ?_, ?_, ?_, rfl, rfl, rfl⟩
  · unfold newUnitName
    rw [hd]
  · show Store.findService _ s.name = _
    simp only [Store.findService]
    rw [find?_updateFirst_same]
    · unfold Store.findService at hd
      simp [hd]
    · intro x hx
      simpa using hx
  · intro n hn
    show Store.findService _ n = _
    simp only [Store.findService]
    rw [find?_updateFirst_other]
    intro x hx
    have hxname : x.name = s.name := by simpa using hx
    have hn2 : ¬s.name = n := fun h => hn h.symm
    exact ⟨by simp [hxname, hn2], by simp [hxname, hn2]⟩

/-- Witness for the amended C3: counter at 4 yields "db/4" and a stored
counter of 5. -/
theorem claim3_newUnitName_witness :
    ∃ st2, newUnitName ⟨[⟨"db", "cs:db", false, .alive, 4, 2, 0, false, 7⟩], [], [], []⟩
        ⟨"db", "cs:db", false, .alive, 4, 2, 0, false, 7⟩ = .ok ("db/4", st2) ∧
      st2.findService "db" = some ⟨"db", "cs:db", false, .alive, 5, 2, 0, false, 7⟩ := by
  obtain ⟨st2, h1, h2, _⟩ := claim3_newUnitName
    ⟨[⟨"db", "cs:db", false, .alive, 4, 2, 0, false, 7⟩], [], [], []⟩
    ⟨"db", "cs:db", false, .alive, 4, 2, 0, false, 7⟩
    ⟨"db", "cs:db", false, .alive, 4, 2, 0, false, 7⟩ (by rfl)
  exact ⟨st2, h1, h2⟩

/-! ## C5: subordinate/principal contract of addUnitOps -/

/-- **C5.** When the service's charm is subordinate and the principal name
is empty, `addUnitOps` (and hence `AddUnit`) fails with "service is
subordinate" before any store operation: the returned store is exactly the
input store, so the unit-sequence counter is untouched and no transaction
was submitted.  Symmetrically, a non-subordinate charm with a non-empty
principal name fails with "service is not a subordinate". -/
theorem claim5_addUnitOps (st : Store) (s : ServiceDoc) (ch : CharmDoc)
    (p : String) (b : Bool) (hch : st.findCharm s.charmURL = some ch) :
    (ch.meta.subordinate = true →
      addUnitOps st s "" b = (.error "service is subordinate", st) ∧
      AddUnit st s = (.error (addUnitErr s "service is subordinate"), st)) ∧
    (ch.meta.subordinate = false → p ≠ "" →
      addUnitOps st s p b = (.error "service is not a subordinate", st)) := by
  constructor
  · intro hsub
    have h1 : addUnitOps st s "" b = (.error "service is subordinate", st) := by
      simp [addUnitOps, charmOf, hch, hsub]
    have h0 : addUnitOps st s "" false = (.error "service is subordinate", st) := by
      simp [addUnitOps, charmOf, hch, hsub]
    refine ⟨h1, ?_⟩
    simp [AddUnit, h0]
  · intro hsub hp
    simp [addUnitOps, charmOf, hch, hsub, hp]

/-- Witness for C5: a subordinate charm rejects `AddUnit` outright. -/
theorem claim5_addUnitOps_witness :
    AddUnit ⟨[⟨"log", "cs:log", false, .alive, 3, 0, 0, false, 1⟩], [], [],
        [⟨"cs:log", ⟨true, [], [], []⟩⟩]⟩
      ⟨"log", "cs:log", false, .alive, 3, 0, 0, false, 1⟩ =
      (.error "cannot add unit to service \"log\": service is subordinate",
        ⟨[⟨"log", "cs:log", false, .alive, 3, 0, 0, false, 1⟩], [], [],
          [⟨"cs:log", ⟨true, [], [], []⟩⟩]⟩) :=
  ((claim5_addUnitOps
    ⟨[⟨"log", "cs:log", false, .alive, 3, 0, 0, false, 1⟩], [], [],
      [⟨"cs:log", ⟨true, [], [], []⟩⟩]⟩
    ⟨"log", "cs:log", false, .alive, 3, 0, 0, false, 1⟩
    ⟨"cs:log", ⟨true, [], [], []⟩⟩ "p" true (by rfl)).1 (by rfl)).2

/-! ## C6: RemoveUnit preconditions and abort handling -/

/-- **C6.** `RemoveUnit` returns an error with the store untouched (no
transaction submitted) when the unit is not Dead or does not belong to the
receiver service; and when the removal transaction aborts, it re-reads the
store and returns success if no unit document with that name remains,
otherwise the invariant-violation error — it never retries. -/
theorem claim6_removeUnit (st : Store) (s : ServiceDoc) (u : UnitDoc) :
    (u.life ≠ Life.dead →
      RemoveUnit st s u = (.error (removeUnitErr u "unit is not dead"), st)) ∧
    (u.life = Life.dead → u.service ≠ s.name →
      RemoveUnit st s u =
        (.error (removeUnitErr u ("unit is not assigned to service \"" ++ s.name ++ "\"")), st)) ∧
    (u.life = Life.dead → u.service = s.name → u.machineId = "" →
      runTxn st (removeUnitOps s u) = .error .aborted →
      ((st.units.filter fun d => d.name = u.name) = [] →
        RemoveUnit st s u = (.ok (), st)) ∧
      ((st.units.filter fun d => d.name = u.name) ≠ [] →
        RemoveUnit st s u =
          (.error (removeUnitErr u "cannot remove unit; something smells bad"), st))) := by
  refine ⟨?_, ?_, ?_⟩
  · intro h
    simp [RemoveUnit, h]
  · intro hdead hsvc
    simp [RemoveUnit, hdead, hsvc]
  · intro hdead hsvc hmach habort
    constructor
    · intro hnone
      simp [RemoveUnit, hdead, hsvc, hmach, habort, hnone]
    · intro hsome
      have hlen : 0 < (st.units.filter fun d => d.name = u.name).length :=
        List.length_pos.mpr hsome
      simp [RemoveUnit, hdead, hsvc, hmach, habort, hlen]

/-- Witness for C6: a dead unit whose document is already gone aborts the
removal transaction and is treated as successfully removed. -/
theorem claim6_removeUnit_witness :
    RemoveUnit ⟨[⟨"wp", "cs:wp", false, .dying, 1, 0, 0, false, 5⟩], [], [], []⟩
        ⟨"wp", "cs:wp", false, .dying, 1, 0, 0, false, 5⟩
        ⟨"wp/0", "wp", .dead, .pending, "", [], "", 2⟩ =
      (.ok (), ⟨[⟨"wp", "cs:wp", false, .dying, 1, 0, 0, false, 5⟩], [], [], []⟩) :=
  ((claim6_removeUnit ⟨[⟨"wp", "cs:wp", false, .dying, 1, 0, 0, false, 5⟩], [], [], []⟩
    ⟨"wp", "cs:wp", false, .dying, 1, 0, 0, false, 5⟩
    ⟨"wp/0", "wp", .dead, .pending, "", [], "", 2⟩).2.2
    (by rfl) (by rfl) (by rfl) (by rfl)).1 (by rfl)

/-! ## C8: Endpoints derived from charm metadata only -/

/-- **C8.** `Endpoints` is computed on demand from the current charm's
metadata: it returns exactly one endpoint per entry of the peers (role
Peer), provides (role Provider) and requires (role Requirer) maps, plus the
implicit "juju-info" Provider endpooint with global scope; its result
depends only on the resolved charm (and the service name), never on any
other stored state. -/
theorem claim8_endpoints (st : Store) (s : ServiceDoc) (ch : CharmDoc)
    (hch : st.findCharm s.charmURL = some ch) :
    ∃ eps, Endpoints st s = .ok eps ∧
      eps = mkEndpoints s.name .peer ch.meta.peers
        ++ mkEndpoints s.name .provider ch.meta.provides
        ++ mkEndpoints s.name .requirer ch.meta.requires
        ++ [jujuInfoEp s.name] ∧
      eps.length = ch.meta.peers.length + ch.meta.provides.length
        + ch.meta.requires.length + 1 ∧
      jujuInfoEp s.name = ⟨s.name, "juju-info", "juju-info", .provider, .global⟩ ∧
      (∀ ep, ep ∈ eps ↔
        ((∃ p ∈ ch.meta.peers, ep = ⟨s.name, p.2.interface, p.1, .peer, p.2.scope⟩) ∨
         (∃ p ∈ ch.meta.provides, ep = ⟨s.name, p.2.interface, p.1, .provider, p.2.scope⟩) ∨
         (∃ p ∈ ch.meta.requires, ep = ⟨s.name, p.2.interface, p.1, .requirer, p.2.scope⟩) ∨
         ep = jujuInfoEp s.name)) ∧
      (∀ st2 : Store, st2.findCharm s.charmURL = some ch →
        Endpoints st2 s = Endpoints st s) := by
  refine ⟨_, by simp [Endpoints, charmOf, hch], rfl, ?_, rfl, ?_, ?_⟩
  · simp [mkEndpoints]
    omega
  · intro ep
    simp only [List.mem_append, List.mem_singleton, mkEndpoints, List.mem_map]
    constructor
    · rintro (((⟨p, hp, rfl⟩ | ⟨p, hp, rfl⟩) | ⟨p, hp, rfl⟩) | h)
      · exact Or.inl ⟨p, hp, rfl⟩
      · exact Or.inr (Or.inl ⟨p, hp, rfl⟩)
      · exact Or.inr (Or.inr (Or.inl ⟨p, hp, rfl⟩))
      · exact Or.inr (Or.inr (Or.inr h))
    · rintro (⟨p, hp, rfl⟩ | ⟨p, hp, rfl⟩ | ⟨p, hp, rfl⟩ | h)
      · exact Or.inl (Or.inl (Or.inl ⟨p, hp, rfl⟩))
      · exact Or.inl (Or.inl (Or.inr ⟨p, hp, rfl⟩))
      · exact Or.inl (Or.inr ⟨p, hp, rfl⟩)
      · exact Or.inr h
  · intro st2 hch2
    simp [Endpoints, charmOf, hch, hch2]

/-- Witness for C8: a charm with one provides entry yields that endpoint
plus the implicit juju-info endpoint. -/
theorem claim8_endpoints_witness :
    ∃ eps, Endpoints
        ⟨[⟨"wp", "cs:wp", false, .alive, 0, 0, 0, false, 0⟩], [], [],
          [⟨"cs:wp", ⟨false, [], [("url", ⟨"http", .global⟩)], []⟩⟩]⟩
        ⟨"wp", "cs:wp", false, .alive, 0, 0, 0, false, 0⟩ = .ok eps ∧
      eps.length = 2 := by
  obtain ⟨eps, h1, _, h3, _⟩ := claim8_endpoints
    ⟨[⟨"wp", "cs:wp", false, .alive, 0, 0, 0, false, 0⟩], [], [],
      [⟨"cs:wp", ⟨false, [], [("url", ⟨"http", .global⟩)], []⟩⟩]⟩
    ⟨"wp", "cs:wp", false, .alive, 0, 0, 0, false, 0⟩
    ⟨"cs:wp", ⟨false, [], [("url", ⟨"http", .global⟩)], []⟩⟩ (by rfl)
  exact ⟨eps, h1, by simpa using h3⟩

/-- Witness for C7 at a concrete store: a Dying service rejects
`SetExposed` with the NotAlive error. -/
theorem claim7_setExposed_witness :
    setExposed
      ⟨[⟨"wp", "cs:wp", false, .dying, 0, 0, 0, false, 5⟩], [], [], []⟩
      ⟨"wp", "cs:wp", false, .dying, 0, 0, 0, false, 5⟩ true =
      (.error "cannot set exposed flag for service \"wp\" to true: not alive",
        ⟨[⟨"wp", "cs:wp", false, .dying, 0, 0, 0, false, 5⟩], [], [], []⟩,
        ⟨"wp", "cs:wp", false, .dying, 0, 0, 0, false, 5⟩) := by
  have h := claim7_setExposed
    ⟨[⟨"wp", "cs:wp", false, .dying, 0, 0, 0, false, 5⟩], [], [], []⟩
    ⟨"wp", "cs:wp", false, .dying, 0, 0, 0, false, 5⟩
    ⟨"wp", "cs:wp", false, .dying, 0, 0, 0, false, 5⟩ true (by rfl)
  have h2 := h.2.2.1 (by decide)
  simpa using h2

end Juju

namespace Process

/-! ## C10: ParseEnv / UnparseEnv round trip -/

theorem trimLeft_eq_self (l : List Char) (h : headNotSpace l = true) : trimLeft l = l := by
  cases l with
  | nil => rfl
  | cons c cs =>
    have hc : isSpaceChar c = false := by simpa [headNotSpace] using h
    simp [trimLeft, List.dropWhile_cons, hc]

theorem headNotSpace_entry (k v : List Char) (h : headNotSpace k = true) :
    headNotSpace (k ++ '=' :: v) = true := by
  cases k with
  | nil =>
    show headNotSpace ('=' :: v) = true
    simp [headNotSpace, isSpaceChar]
  | cons c cs => simpa [headNotSpace] using h

theorem lastNotSpace_entry (k v : List Char) (h : lastNotSpace v = true) :
    lastNotSpace (k ++ '=' :: v) = true := by
  unfold lastNotSpace at *
  rw [show (k ++ '=' :: v).reverse = v.reverse ++ '=' :: k.reverse from by simp]
  exact headNotSpace_entry _ _ h

theorem trimRight_eq_self (l : List Char) (h : lastNotSpace l = true) : trimRight l = l := by
  unfold lastNotSpace at h
  have h2 := trimLeft_eq_self l.reverse h
  unfold trimLeft at h2
  unfold trimRight
  rw [h2, List.reverse_reverse]

theorem trim_entry (k v : List Char) (hk : headNotSpace k = true)
    (hv : lastNotSpace v = true) : trimSpace (k ++ '=' :: v) = k ++ '=' :: v := by
  unfold trimSpace
  rw [show trimLeft (k ++ '=' :: v) = k ++ '=' :: v from trimLeft_eq_self _ (headNotSpace_entry k v hk)]
  exact trimRight_eq_self _ (lastNotSpace_entry k v hv)

theorem splitEq_append (k v : List Char) (h : '=' ∉ k) :
    splitEq (k ++ '=' :: v) = (k, some v) := by
  induction k with
  | nil => simp [splitEq]
  | cons c cs ih =>
    have hc : ¬c = '=' := by
      intro e
      exact h (by rw [e]; exact List.mem_cons_self _ _)
    have h2 : '=' ∉ cs := fun hm => h (List.mem_cons_of_mem _ hm)
    simp [splitEq, hc, ih h2]

theorem splitEq_no_eq (e : List Char) (h : '=' ∉ e) : splitEq e = (e, none) := by
  induction e with
  | nil => rfl
  | cons c cs ih =>
    have hc : ¬c = '=' := by
      intro hce
      exact h (by rw [hce]; exact List.mem_cons_self _ _)
    have h2 : '=' ∉ cs := fun hm => h (List.mem_cons_of_mem _ hm)
    simp [splitEq, hc, ih h2]

theorem envInsert_fresh (m : EnvMap) (k v : List Char) (h : envHasKey m k = false) :
    envInsert m k v = m ++ [(k, v)] := by
  simp [envInsert, h]

theorem parseEnvLoop_unparse (env : EnvMap) : ∀ m : EnvMap,
    (∀ p ∈ env, WFEntry p.1 p.2) →
    (∀ p ∈ env, envHasKey m p.1 = false) →
    (env.map Prod.fst).Nodup →
    parseEnvLoop m (UnparseEnv env) = m ++ env := by
  induction env with
  | nil =>
    intro m _ _ _
    simp [UnparseEnv, parseEnvLoop]
  | cons kv rest ih =>
    intro m hwf hfresh hnodup
    obtain ⟨k, v⟩ := kv
    obtain ⟨hk0, hkeq, hkh, _, hvl⟩ := hwf (k, v) (List.mem_cons_self _ _)
    have htrim : trimSpace (k ++ '=' :: v) = k ++ '=' :: v := trim_entry k v hkh hvl
    have hne : ¬(k ++ '=' :: v = []) := by simp
    have hsplit : splitEq (k ++ '=' :: v) = (k, some v) := splitEq_append k v hkeq
    have hins : envInsert m k v = m ++ [(k, v)] :=
      envInsert_fresh m k v (hfresh (k, v) (List.mem_cons_self _ _))
    have hknotin : k ∉ rest.map Prod.fst := by
      have h := hnodup
      simp only [List.map_cons, List.nodup_cons] at h
      exact h.1
    have hfresh2 : ∀ p ∈ rest, envHasKey (m ++ [(k, v)]) p.1 = false := by
      intro p hp
      have hf := hfresh p (List.mem_cons_of_mem _ hp)
      have hpk : ¬(k = p.1) := by
        intro he
        exact hknotin (he ▸ List.mem_map_of_mem Prod.fst hp)
      simp only [envHasKey, List.any_append, List.any_cons, List.any_nil,
        Bool.or_false, Bool.or_eq_false_iff] at hf ⊢
      exact ⟨hf, by simpa using hpk⟩
    have hnodup2 : (rest.map Prod.fst).Nodup := by
      simp only [List.map_cons, List.nodup_cons] at hnodup
      exact hnodup.2
    show parseEnvLoop m ((k ++ '=' :: v) :: UnparseEnv rest) = m ++ (k, v) :: rest
    rw [parseEnvLoop]
    simp only [htrim, hne, if_false, hsplit, Option.getD_some, hins]
    rw [ih (m ++ [(k, v)]) (fun p hp => hwf p (List.mem_cons_of_mem _ hp)) hfresh2 hnodup2]
    simp

/-- **C10.** For every well-formed environment map (keys non-empty, without
'=', without leading or trailing whitespace; values without trailing
whitespace; distinct keys), `ParseEnv (UnparseEnv env)` returns `env`
itself when `env` is non-empty and Go's `nil` (`none`) when `env` is empty;
moreover `ParseEnv` skips entries that trim to blank, and an entry without
'=' is recorded as a variable with empty value. -/
theorem claim10_parse_unparse (env : EnvMap) (h : WFEnv env) :
    (env = [] → ParseEnv (UnparseEnv env) = none) ∧
    (env ≠ [] → ParseEnv (UnparseEnv env) = some env) ∧
    (∀ (raw : List (List Char)) (m : EnvMap) (e : List Char), trimSpace e = [] →
      parseEnvLoop m (e :: raw) = parseEnvLoop m raw) ∧
    (∀ (raw : List (List Char)) (m : EnvMap) (e : List Char),
      trimSpace e ≠ [] → '=' ∉ trimSpace e →
      parseEnvLoop m (e :: raw) = parseEnvLoop (envInsert m (trimSpace e) []) raw) := by
  refine ⟨?_, ?_, ?_, ?_⟩
  · intro he
    subst he
    rfl
  · intro he
    have hloop : parseEnvLoop [] (UnparseEnv env) = [] ++ env :=
      parseEnvLoop_unparse env [] h.1 (fun p _ => rfl) h.2
    simp only [List.nil_append] at hloop
    simp [ParseEnv, hloop, he]
  · intro raw m e htriv
    rw [parseEnvLoop]
    simp [htriv]
  · intro raw m e hne hnoeq
    rw [parseEnvLoop]
    simp only [hne, if_false, splitEq_no_eq (trimSpace e) hnoeq, Option.getD_none]

/-- Witness for C10: the one-binding map A ↦ b round-trips. -/
theorem claim10_parse_unparse_witness :
    ParseEnv (UnparseEnv [(['A'], ['b'])]) = some [(['A'], ['b'])] :=
  (claim10_parse_unparse [(['A'], ['b'])] (by decide)).2.1 (by decide)

end Process
